import Mathlib

/-!
# Verification of the parallel-copy sequentializer (`algorithm13.rs`)

This file is a shallow embedding of the register-copy sequentialization
routine `sequentialize_register` together with the sequential / parallel
execution semantics used by its test harness, and proofs of the key
properties of the algorithm: functional correctness against the
simultaneous-parallel-copy semantics, precondition enforcement, frame
conditions, the output-length bound in terms of the number of cycles of the
batch's dependency graph, and termination.

Registers (`u32` in the source) are modelled as `Nat`: the code performs no
arithmetic on them, only equality and ordering, so this is faithful. The
`HashMap` used for `current_holder` is modelled as an association list (only
keyed lookup/insert are used, so iteration order is irrelevant); the
`BTreeMap` used for `pending` is modelled as an association list sorted
strictly by key, so that the head of the list is the entry with the least
key, exactly like `pending.iter().next()`. The `Vec` used as the `available`
stack is modelled as a list with push = cons and pop = head, which has the
same LIFO behaviour. Rust panics are modelled as `Except` errors.
-/

/-- `Register` is a plain identifier; the `u32` of the source modelled as `Nat`. -/
abbrev Register := Nat

/-- An ordered pair (source, destination): copy the value in `source` into
`destination`.  Mirrors `struct RegisterCopy` of the source. -/
structure RegisterCopy where
  source : Register
  destination : Register
deriving DecidableEq, Repr

/-- The abort reasons of `sequentialize_register`.  The first three mirror the
three `panic!`… sites of the source (spare used in the batch, duplicate
destination, missing current-holder entry); `outOfFuel` is the marker used by
the fuel-indexed loop below and is proved unreachable for the fuel bound the
top-level function passes. -/
inductive SeqError where
  | spareConflict
  | dupDest
  | noHolder
  | outOfFuel
deriving DecidableEq, Repr

/-- Lookup in an association list (model of `HashMap::get`). -/
def alLookup {α : Type} (l : List (Nat × α)) (k : Nat) : Option α :=
  match l with
  | [] => none
  | (k', v) :: rest => if k' = k then some v else alLookup rest k

/-- Insert-or-replace in an association list (model of `HashMap::insert`). -/
def alInsert {α : Type} (l : List (Nat × α)) (k : Nat) (v : α) : List (Nat × α) :=
  match l with
  | [] => [(k, v)]
  | (k', v') :: rest => if k' = k then (k, v) :: rest else (k', v') :: alInsert rest k v

/-- Ordered insert-or-replace into a key-sorted association list (model of
`BTreeMap::insert`). -/
def pInsert {α : Type} (k : Nat) (v : α) : List (Nat × α) → List (Nat × α)
  | [] => [(k, v)]
  | (k', v') :: rest =>
    if k < k' then (k, v) :: (k', v') :: rest
    else if k = k' then (k, v) :: rest
    else (k', v') :: pInsert k v rest

/-- Remove the first entry with the given key (model of `BTreeMap::remove` /
`HashMap::remove` on a map with unique keys). -/
def pErase {α : Type} (l : List (Nat × α)) (k : Nat) : List (Nat × α) :=
  match l with
  | [] => []
  | (k', v') :: rest => if k' = k then rest else (k', v') :: pErase rest k

/-- The local state of `sequentialize_register`'s main loop. -/
structure SeqState where
  sequentialized : List RegisterCopy
  current_holder : List (Nat × Nat)
  pending : List (Nat × RegisterCopy)
  available : List RegisterCopy
deriving DecidableEq, Repr

/-- One atomic step of the main loop of `sequentialize_register`
(lines 42–75 of `algorithm13.rs`): if the `available` stack is non-empty, pop
one copy and materialize it (the body of the inner `while let`); otherwise, if
`pending` is non-empty, break one cycle by evicting the pending copy with the
least destination into the spare register; otherwise stop (`.ok none`). -/
def stepBody (spare : Register) (st : SeqState) : Except SeqError (Option SeqState) :=
  match st.available with
  | copy :: restAvail =>
    match alLookup st.current_holder copy.source with
    | none => .error .noHolder
    | some h =>
      let emitted := st.sequentialized ++ [⟨h, copy.destination⟩]
      match alLookup st.pending h with
      | some availableCopy =>
        .ok (some ⟨emitted, alInsert st.current_holder copy.source copy.destination,
                   pErase st.pending h, availableCopy :: restAvail⟩)
      | none =>
        if h = spare then
          .ok (some ⟨emitted, alInsert st.current_holder copy.source copy.destination,
                     st.pending, restAvail⟩)
        else
          .ok (some ⟨emitted, st.current_holder, st.pending, restAvail⟩)
  | [] =>
    match st.pending with
    | (d, copy) :: _ =>
      .ok (some ⟨st.sequentialized ++ [⟨copy.destination, spare⟩],
                 alInsert st.current_holder copy.destination spare,
                 pErase st.pending d, [copy]⟩)
    | [] => .ok none

/-- Termination measure of the main loop: each step strictly decreases it. -/
def loopMeasure (st : SeqState) : Nat :=
  2 * st.pending.length + st.available.length

/-- The main loop, indexed by fuel.  `runLoop` with fuel `loopMeasure st + 1`
never exhausts its fuel (proved below), so this is a faithful model of the
`while` loop of the source. -/
def runLoop (spare : Register) : Nat → SeqState → Except SeqError (List RegisterCopy)
  | 0, _ => .error .outOfFuel
  | fuel + 1, st =>
    match stepBody spare st with
    | .error e => .error e
    | .ok none => .ok st.sequentialized
    | .ok (some st') => runLoop spare fuel st'

/-- The first `for` loop of `sequentialize_register` (lines 23–34): check each
copy against the spare, insert it into `pending` keyed by destination
(aborting on a duplicate destination), and record `current_holder[source] =
source`. -/
def initLoop (spare : Register) :
    List RegisterCopy → List (Nat × RegisterCopy) → List (Nat × Nat) →
    Except SeqError (List (Nat × RegisterCopy) × List (Nat × Nat))
  | [], pend, hold => .ok (pend, hold)
  | copy :: rest, pend, hold =>
    if copy.source = spare ∨ copy.destination = spare then
      .error .spareConflict
    else
      match alLookup pend copy.destination with
      | some _ => .error .dupDest
      | none =>
        initLoop spare rest (pInsert copy.destination copy pend)
          (alInsert hold copy.source copy.source)

/-- The second `for` loop of `sequentialize_register` (lines 35–41): every copy
whose destination is not a key of `current_holder` (i.e. not a source of any
copy of the batch) is moved from `pending` onto the `available` stack. -/
def seedAvailable (hold : List (Nat × Nat)) :
    List RegisterCopy → List (Nat × RegisterCopy) → List RegisterCopy →
    List (Nat × RegisterCopy) × List RegisterCopy
  | [], pend, avail => (pend, avail)
  | copy :: rest, pend, avail =>
    match alLookup hold copy.destination with
    | none => seedAvailable hold rest (pErase pend copy.destination) (copy :: avail)
    | some _ => seedAvailable hold rest pend avail

/-- The sequentializer itself (`fn sequentialize_register`, lines 12–77 of
`algorithm13.rs`). -/
def sequentialize_register (parallel_copies : List RegisterCopy) (spare : Register) :
    Except SeqError (List RegisterCopy) :=
  match initLoop spare parallel_copies [] [] with
  | .error e => .error e
  | .ok (pend, hold) =>
    match seedAvailable hold parallel_copies pend [] with
    | (pend2, avail) =>
      let st : SeqState := ⟨[], hold, pend2, avail⟩
      runLoop spare (loopMeasure st + 1) st

/-- Write `v` into register `d` of register file `V`. -/
def writeReg (V : Register → Nat) (d v : Nat) : Register → Nat :=
  fun r => if r = d then v else V r

/-- Run a list of copies sequentially over a register file, each copy
immediately overwriting its destination. -/
def execSeq : List RegisterCopy → (Register → Nat) → (Register → Nat)
  | [], V => V
  | c :: rest, V => execSeq rest (writeReg V c.destination (V c.source))

/-- Sequential execution semantics of the test harness
(`fn execute_sequential`): every register initially holds its own id, and each
copy immediately overwrites its destination, visible to subsequent copies. -/
def execute_sequential (copies : List RegisterCopy) : Register → Nat :=
  execSeq copies id

/-- Parallel execution semantics of the test harness (`fn execute_parallel`):
each destination receives the pre-batch value of its source (the id of the
source register).  The result maps each destination register to its final
value. -/
def execute_parallel (copies : List RegisterCopy) : List (Nat × Nat) :=
  copies.foldl (fun m c => alInsert m c.destination c.source) []

/-- The destination registers of a batch. -/
def destinations (l : List RegisterCopy) : List Register :=
  l.map (·.destination)

/-- The source registers of a batch. -/
def sourcesOf (l : List RegisterCopy) : List Register :=
  l.map (·.source)

/-- The two preconditions of `sequentialize_register`: no duplicate
destinations; the spare is neither a source nor a destination of the batch. -/
def validInput (l : List RegisterCopy) (spare : Register) : Prop :=
  (destinations l).Nodup ∧ ∀ c ∈ l, c.source ≠ spare ∧ c.destination ≠ spare

instance (l : List RegisterCopy) (spare : Register) : Decidable (validInput l spare) := by
  unfold validInput; infer_instance

/-- The dependency ("source-of") map of a batch: the unique copy writing into
`r`, if any, read off its source.  With destinations unique this is the
functional dependency graph of the batch. -/
def srcMap (B : List RegisterCopy) (r : Register) : Option Register :=
  (B.find? (fun c => c.destination = r)).map (·.source)

/-- Iterate `srcMap` `n` times. -/
def srcIter (B : List RegisterCopy) : Nat → Register → Option Register
  | 0, r => some r
  | n + 1, r =>
    match srcMap B r with
    | none => none
    | some s => srcIter B n s

/-- `r` lies on a cycle of the batch's dependency graph: following sources
from `r` returns to `r` in at least one and at most `|B|` steps. -/
def cyclicReg (B : List RegisterCopy) (r : Register) : Prop :=
  ∃ p ∈ Finset.Icc 1 B.length, srcIter B p r = some r

instance (B : List RegisterCopy) (r : Register) : Decidable (cyclicReg B r) := by
  unfold cyclicReg; infer_instance

/-- `m` is reachable from `r` along the dependency graph within `|B|` steps. -/
def reachesIn (B : List RegisterCopy) (r m : Register) : Prop :=
  ∃ n ∈ Finset.range (B.length + 1), srcIter B n r = some m

instance (B : List RegisterCopy) (r m : Register) : Decidable (reachesIn B r m) := by
  unfold reachesIn; infer_instance

/-- The least register of each cycle of the batch's dependency graph.  Each
independent cycle contributes exactly one such register, so the number of
independent cycles of the batch is the cardinality of this set. -/
def cycleMins (B : List RegisterCopy) : Finset Register :=
  (destinations B).toFinset.filter
    (fun r => cyclicReg B r ∧ ∀ m ∈ (destinations B).toFinset, reachesIn B r m → r ≤ m)

/-- The number of independent cycles of the batch's dependency graph, counted
as the number of cycle-minimal registers. -/
def numCycles (B : List RegisterCopy) : Nat :=
  (cycleMins B).card

/-- The copies still held in `pending`. -/
def pendingCopies (st : SeqState) : List RegisterCopy :=
  st.pending.map Prod.snd

/-- The copies of the batch not yet materialized: pending ones plus the
`available` stack. -/
def remaining (st : SeqState) : List RegisterCopy :=
  pendingCopies st ++ st.available

/-- The keys (destination registers) of `pending`. -/
def pendKeys (st : SeqState) : List Register :=
  st.pending.map Prod.fst

example : sequentialize_register [⟨1, 2⟩, ⟨2, 3⟩, ⟨3, 1⟩] 4 =
    .ok [⟨1, 4⟩, ⟨3, 1⟩, ⟨2, 3⟩, ⟨4, 2⟩] := by rfl

example : sequentialize_register [⟨1, 2⟩, ⟨2, 3⟩, ⟨3, 4⟩] 5 =
    .ok [⟨3, 4⟩, ⟨2, 3⟩, ⟨1, 2⟩] := by rfl

example : execute_sequential [⟨3, 4⟩, ⟨2, 3⟩, ⟨1, 2⟩] 4 = 3 := by rfl

example : sequentialize_register [⟨1, 2⟩, ⟨3, 2⟩] 5 = .error .dupDest := by rfl

example : sequentialize_register [⟨1, 2⟩, ⟨5, 3⟩] 5 = .error .spareConflict := by rfl

/-! ## Association-list lemmas -/

theorem alLookup_alInsert {α : Type} (l : List (Nat × α)) (k k' : Nat) (v : α) :
    alLookup (alInsert l k v) k' = if k = k' then some v else alLookup l k' := by
  induction l with
  | nil => simp [alInsert, alLookup]
  | cons a rest ih =>
    obtain ⟨a1, a2⟩ := a
    by_cases hak : a1 = k
    · subst hak
      by_cases hkk : a1 = k'
      · simp [alInsert, alLookup, hkk]
      · simp [alInsert, alLookup, hkk]
    · by_cases hak' : a1 = k'
      · subst hak'
        have : k ≠ a1 := fun h => hak h.symm
        simp [alInsert, alLookup, hak, this]
      · simp [alInsert, alLookup, hak, hak', ih]

theorem alLookup_eq_none_iff {α : Type} (l : List (Nat × α)) (k : Nat) :
    alLookup l k = none ↔ k ∉ l.map Prod.fst := by
  induction l with
  | nil => simp [alLookup]
  | cons a rest ih =>
    obtain ⟨a1, a2⟩ := a
    by_cases h : a1 = k
    · subst h; simp [alLookup]
    · simp only [alLookup, if_neg h, List.map_cons, List.mem_cons, ih]
      constructor
      · rintro hk hm
        rcases hm with rfl | hm
        · exact h rfl
        · exact hk hm
      · intro hk hm
        exact hk (Or.inr hm)

theorem alLookup_isSome_iff {α : Type} (l : List (Nat × α)) (k : Nat) :
    (∃ v, alLookup l k = some v) ↔ k ∈ l.map Prod.fst := by
  rw [← not_iff_not, ← alLookup_eq_none_iff]
  cases alLookup l k <;> simp

theorem alLookup_mem {α : Type} {l : List (Nat × α)} {k : Nat} {v : α}
    (h : alLookup l k = some v) : (k, v) ∈ l := by
  induction l with
  | nil => simp [alLookup] at h
  | cons a rest ih =>
    obtain ⟨a1, a2⟩ := a
    by_cases hk : a1 = k
    · subst hk
      simp [alLookup] at h
      simp [h]
    · simp [alLookup, hk] at h
      exact List.mem_cons_of_mem _ (ih h)

/-! ## `pErase` lemmas -/

theorem pErase_sublist {α : Type} (l : List (Nat × α)) (k : Nat) :
    (pErase l k).Sublist l := by
  induction l with
  | nil => simp [pErase]
  | cons a rest ih =>
    obtain ⟨a1, a2⟩ := a
    by_cases h : a1 = k
    · simp only [pErase, if_pos h]
      exact List.sublist_cons_self _ _
    · simp only [pErase, if_neg h]
      exact ih.cons₂ _

theorem pErase_perm {α : Type} {l : List (Nat × α)} {k : Nat} {v : α}
    (h : alLookup l k = some v) : l.Perm ((k, v) :: pErase l k) := by
  induction l with
  | nil => simp [alLookup] at h
  | cons a rest ih =>
    obtain ⟨a1, a2⟩ := a
    by_cases hk : a1 = k
    · subst hk
      simp [alLookup] at h
      simp [pErase, h]
    · simp [alLookup, hk] at h
      have := ih h
      simpa [pErase, hk] using ((this.cons (a1, a2)).trans (List.Perm.swap _ _ _))

theorem alLookup_pErase_ne {α : Type} (l : List (Nat × α)) (k k' : Nat) (h : k' ≠ k) :
    alLookup (pErase l k) k' = alLookup l k' := by
  induction l with
  | nil => simp [pErase]
  | cons a rest ih =>
    obtain ⟨a1, a2⟩ := a
    by_cases hk : a1 = k
    · subst hk
      have h2 : ¬ a1 = k' := fun hh => h hh.symm
      simp [pErase, alLookup, h2]
    · by_cases hk' : a1 = k'
      · subst hk'
        simp [pErase, alLookup, hk, h]
      · simp [pErase, alLookup, hk, hk', ih]

theorem pErase_cons_self {α : Type} (k : Nat) (v : α) (rest : List (Nat × α)) :
    pErase ((k, v) :: rest) k = rest := by
  simp [pErase]

theorem not_mem_keys_pErase {α : Type} {l : List (Nat × α)} {k : Nat}
    (h : (l.map Prod.fst).Nodup) : k ∉ (pErase l k).map Prod.fst := by
  induction l with
  | nil => simp [pErase]
  | cons a rest ih =>
    obtain ⟨a1, a2⟩ := a
    simp only [List.map_cons, List.nodup_cons] at h
    by_cases hk : a1 = k
    · subst hk
      simpa [pErase] using h.1
    · intro hmem
      simp only [pErase, if_neg hk, List.map_cons, List.mem_cons] at hmem
      rcases hmem with h1 | h1
      · exact hk h1.symm
      · exact ih h.2 h1

/-! ## `pInsert` lemmas -/

theorem pInsert_cons_eq {α : Type} (k : Nat) (v v' : α) (rest : List (Nat × α)) :
    pInsert k v ((k, v') :: rest) = (k, v) :: rest := by
  simp [pInsert]

theorem pInsert_cons_lt {α : Type} {k k' : Nat} (h : k < k') (v v' : α)
    (rest : List (Nat × α)) :
    pInsert k v ((k', v') :: rest) = (k, v) :: (k', v') :: rest := by
  simp [pInsert, h]

theorem pInsert_cons_gt {α : Type} {k k' : Nat} (h : k' < k) (v v' : α)
    (rest : List (Nat × α)) :
    pInsert k v ((k', v') :: rest) = (k', v') :: pInsert k v rest := by
  have h1 : ¬ k < k' := Nat.not_lt_of_gt h
  have h2 : ¬ k = k' := fun hh => absurd hh (Ne.symm (Nat.ne_of_lt h))
  simp [pInsert, h1, h2]

theorem alLookup_pInsert {α : Type} (l : List (Nat × α)) (k k' : Nat) (v : α) :
    alLookup (pInsert k v l) k' = if k = k' then some v else alLookup l k' := by
  induction l with
  | nil => simp [pInsert, alLookup]
  | cons a rest ih =>
    obtain ⟨a1, a2⟩ := a
    rcases Nat.lt_trichotomy k a1 with hlt | heq | hgt
    · rw [pInsert_cons_lt hlt]
      by_cases hkk : k = k' <;> simp [alLookup, hkk]
    · subst heq
      rw [pInsert_cons_eq]
      by_cases hkk : k = k' <;> simp [alLookup, hkk]
    · have h2 : ¬ k = a1 := fun hh => absurd hh (Ne.symm (Nat.ne_of_lt hgt))
      rw [pInsert_cons_gt hgt]
      by_cases hak : a1 = k'
      · subst hak
        simp [alLookup, h2]
      · simp [alLookup, hak, ih]

theorem keys_pInsert_perm {α : Type} {l : List (Nat × α)} {k : Nat} (v : α)
    (h : k ∉ l.map Prod.fst) :
    ((pInsert k v l).map Prod.fst).Perm (k :: l.map Prod.fst) := by
  induction l with
  | nil => simp [pInsert]
  | cons a rest ih =>
    obtain ⟨a1, a2⟩ := a
    simp only [List.map_cons, List.mem_cons] at h
    push_neg at h
    rcases Nat.lt_trichotomy k a1 with hlt | heq | hgt
    · rw [pInsert_cons_lt hlt]
      simp only [List.map_cons]
      exact List.Perm.refl _
    · exact absurd heq h.1
    · rw [pInsert_cons_gt hgt]
      simp only [List.map_cons]
      exact ((ih h.2).cons a1).trans (List.Perm.swap _ _ _)

theorem mem_pInsert {α : Type} {l : List (Nat × α)} {k : Nat} {v : α} {x : Nat × α}
    (hx : x ∈ pInsert k v l) : x = (k, v) ∨ x ∈ l := by
  induction l with
  | nil => simpa [pInsert] using hx
  | cons a rest ih =>
    obtain ⟨a1, a2⟩ := a
    rcases Nat.lt_trichotomy k a1 with hlt | heq | hgt
    · rw [pInsert_cons_lt hlt] at hx
      rcases List.mem_cons.mp hx with h | h
      · exact Or.inl h
      · exact Or.inr h
    · subst heq
      rw [pInsert_cons_eq] at hx
      rcases List.mem_cons.mp hx with h | h
      · exact Or.inl h
      · exact Or.inr (List.mem_cons_of_mem _ h)
    · rw [pInsert_cons_gt hgt] at hx
      rcases List.mem_cons.mp hx with h | h
      · exact Or.inr (h ▸ List.mem_cons_self _ _)
      · rcases ih h with h' | h'
        · exact Or.inl h'
        · exact Or.inr (List.mem_cons_of_mem _ h')

theorem mem_pInsert_iff {α : Type} {l : List (Nat × α)} {k : Nat} {v : α}
    (h : k ∉ l.map Prod.fst) (x : Nat × α) :
    x ∈ pInsert k v l ↔ x = (k, v) ∨ x ∈ l := by
  induction l with
  | nil => simp [pInsert]
  | cons a rest ih =>
    obtain ⟨a1, a2⟩ := a
    simp only [List.map_cons, List.mem_cons] at h
    push_neg at h
    rcases Nat.lt_trichotomy k a1 with hlt | heq | hgt
    · rw [pInsert_cons_lt hlt]
      simp only [List.mem_cons]
    · exact absurd heq h.1
    · rw [pInsert_cons_gt hgt]
      simp only [List.mem_cons, ih h.2]
      tauto

theorem pairwise_pInsert {α : Type} {l : List (Nat × α)} {k : Nat} {v : α}
    (h : l.Pairwise (fun a b => a.1 < b.1)) :
    (pInsert k v l).Pairwise (fun a b => a.1 < b.1) := by
  induction l with
  | nil => simp [pInsert]
  | cons a rest ih =>
    obtain ⟨a1, a2⟩ := a
    rw [List.pairwise_cons] at h
    rcases Nat.lt_trichotomy k a1 with hlt | heq | hgt
    · rw [pInsert_cons_lt hlt]
      rw [List.pairwise_cons]
      constructor
      · intro b hb
        rcases List.mem_cons.mp hb with hb' | hb'
        · rw [hb']
          exact hlt
        · exact Nat.lt_trans hlt (h.1 b hb')
      · rw [List.pairwise_cons]
        exact h
    · subst heq
      rw [pInsert_cons_eq]
      rw [List.pairwise_cons]
      exact ⟨h.1, h.2⟩
    · rw [pInsert_cons_gt hgt]
      rw [List.pairwise_cons]
      refine ⟨?_, ih h.2⟩
      intro b hb
      rcases mem_pInsert hb with rfl | hb'
      · exact hgt
      · exact h.1 b hb'

/-! ## `execSeq` lemmas -/

theorem execSeq_append (l l' : List RegisterCopy) (V : Register → Nat) :
    execSeq (l ++ l') V = execSeq l' (execSeq l V) := by
  induction l generalizing V with
  | nil => rfl
  | cons c rest ih => simp [execSeq, ih]

theorem execSeq_unchanged {l : List RegisterCopy} {r : Register}
    (h : ∀ c ∈ l, c.destination ≠ r) (V : Register → Nat) :
    execSeq l V r = V r := by
  induction l generalizing V with
  | nil => rfl
  | cons c rest ih =>
    simp only [execSeq]
    rw [ih (fun c hc => h c (List.mem_cons_of_mem _ hc))]
    simp only [writeReg]
    rw [if_neg (fun hr => h c (List.mem_cons_self _ _) hr.symm)]

/-! ## Characterization of one loop step -/

/-- Exhaustive description of the outcomes of `stepBody`: loop finished,
cycle-breaking eviction, missing holder, or one of the three ways of
materializing the top of the `available` stack. -/
theorem stepBody_spec (spare : Register) (st : SeqState) :
    (st.available = [] ∧ st.pending = [] ∧ stepBody spare st = .ok none) ∨
    (∃ d copy restP, st.available = [] ∧ st.pending = (d, copy) :: restP ∧
      stepBody spare st = .ok (some ⟨st.sequentialized ++ [⟨copy.destination, spare⟩],
        alInsert st.current_holder copy.destination spare, restP, [copy]⟩)) ∨
    (∃ copy restA, st.available = copy :: restA ∧
      alLookup st.current_holder copy.source = none ∧
      stepBody spare st = .error .noHolder) ∨
    (∃ copy restA h ac, st.available = copy :: restA ∧
      alLookup st.current_holder copy.source = some h ∧
      alLookup st.pending h = some ac ∧
      stepBody spare st = .ok (some ⟨st.sequentialized ++ [⟨h, copy.destination⟩],
        alInsert st.current_holder copy.source copy.destination,
        pErase st.pending h, ac :: restA⟩)) ∨
    (∃ copy restA h, st.available = copy :: restA ∧
      alLookup st.current_holder copy.source = some h ∧
      alLookup st.pending h = none ∧ h = spare ∧
      stepBody spare st = .ok (some ⟨st.sequentialized ++ [⟨h, copy.destination⟩],
        alInsert st.current_holder copy.source copy.destination,
        st.pending, restA⟩)) ∨
    (∃ copy restA h, st.available = copy :: restA ∧
      alLookup st.current_holder copy.source = some h ∧
      alLookup st.pending h = none ∧ h ≠ spare ∧
      stepBody spare st = .ok (some ⟨st.sequentialized ++ [⟨h, copy.destination⟩],
        st.current_holder, st.pending, restA⟩)) := by
  rcases hA : st.available with _ | ⟨copy, restA⟩
  · rcases hP : st.pending with _ | ⟨⟨d, c⟩, restP⟩
    · left
      exact ⟨rfl, rfl, by simp [stepBody, hA, hP]⟩
    · right; left
      refine ⟨d, c, restP, rfl, rfl, ?_⟩
      simp only [stepBody, hA, hP]
      rw [pErase_cons_self]
  · rcases hH : alLookup st.current_holder copy.source with _ | h
    · right; right; left
      exact ⟨copy, restA, rfl, hH, by simp [stepBody, hA, hH]⟩
    · rcases hPend : alLookup st.pending h with _ | ac
      · by_cases hsp : h = spare
        · right; right; right; right; left
          subst hsp
          exact ⟨copy, restA, h, rfl, hH, hPend, rfl,
            by simp [stepBody, hA, hH, hPend]⟩
        · right; right; right; right; right
          exact ⟨copy, restA, h, rfl, hH, hPend, hsp,
            by simp [stepBody, hA, hH, hPend, hsp]⟩
      · right; right; right; left
        exact ⟨copy, restA, h, ac, rfl, hH, hPend,
          by simp [stepBody, hA, hH, hPend]⟩

/-- Each loop step strictly decreases the loop measure. -/
theorem stepBody_measure {spare : Register} {st st' : SeqState}
    (hst : stepBody spare st = .ok (some st')) : loopMeasure st' < loopMeasure st := by
  rcases stepBody_spec spare st with ⟨_, _, he⟩ | ⟨d, c, restP, hA, hP, he⟩ |
      ⟨c, restA, hA, _, he⟩ | ⟨c, restA, h, ac, hA, _, hPend, he⟩ |
      ⟨c, restA, h, hA, _, _, _, he⟩ | ⟨c, restA, h, hA, _, _, _, he⟩ <;>
    rw [he] at hst
  · exact absurd hst (by simp)
  · cases hst
    simp only [loopMeasure, hA, hP, List.length_cons, List.length_nil]
    omega
  · exact absurd hst (by simp)
  · cases hst
    have hlen : (pErase st.pending h).length + 1 = st.pending.length := by
      have := (pErase_perm hPend).length_eq
      simp only [List.length_cons] at this
      omega
    simp only [loopMeasure, hA, List.length_cons]
    omega
  · cases hst
    simp only [loopMeasure, hA, List.length_cons]
    omega
  · cases hst
    simp only [loopMeasure, hA, List.length_cons]
    omega

/-- `stepBody` can only fail with `noHolder`. -/
theorem stepBody_error_noHolder {spare : Register} {st : SeqState} {e : SeqError}
    (hst : stepBody spare st = .error e) : e = .noHolder := by
  rcases stepBody_spec spare st with ⟨_, _, he⟩ | ⟨d, c, restP, _, _, he⟩ |
      ⟨c, restA, hA, _, he⟩ | ⟨c, restA, h, ac, hA, _, hPend, he⟩ |
      ⟨c, restA, h, hA, _, _, _, he⟩ | ⟨c, restA, h, hA, _, _, _, he⟩ <;>
    rw [he] at hst
  · exact absurd hst (by simp)
  · exact absurd hst (by simp)
  · cases hst
    rfl
  · exact absurd hst (by simp)
  · exact absurd hst (by simp)
  · exact absurd hst (by simp)

/-- With fuel exceeding the loop measure, the loop never exhausts its fuel. -/
theorem runLoop_ne_outOfFuel {spare : Register} : ∀ {fuel : Nat} {st : SeqState},
    loopMeasure st < fuel → runLoop spare fuel st ≠ .error .outOfFuel := by
  intro fuel
  induction fuel with
  | zero => intro st h; omega
  | succ n ih =>
    intro st h
    rw [runLoop]
    rcases he : stepBody spare st with e | o
    · have := stepBody_error_noHolder he
      subst this
      simp
    · rcases o with _ | st'
      · simp
      · simp only []
        have hm := stepBody_measure he
        exact ih (by omega)

/-- The loop never reports a precondition violation: those are detected before
the loop starts. -/
theorem runLoop_ne_precondition {spare : Register} : ∀ {fuel : Nat} {st : SeqState},
    runLoop spare fuel st ≠ .error .spareConflict ∧
    runLoop spare fuel st ≠ .error .dupDest := by
  intro fuel
  induction fuel with
  | zero => intro st; rw [runLoop]; simp
  | succ n ih =>
    intro st
    rw [runLoop]
    rcases he : stepBody spare st with e | o
    · have := stepBody_error_noHolder he
      subst this
      simp
    · rcases o with _ | st'
      · simp
      · exact ih

/-! ## Characterization of the initialization loop -/

/-- Key facts about a successful run of the first `for` loop: the resulting
`pending` map is sorted and holds exactly the old entries plus one entry
`(destination, copy)` per input copy; the holder map sends every source of the
batch to itself; and the batch satisfies both preconditions. -/
theorem initLoop_ok {spare : Register} :
    ∀ {l : List RegisterCopy} {pend pend' : List (Nat × RegisterCopy)}
      {hold hold' : List (Nat × Nat)},
    initLoop spare l pend hold = .ok (pend', hold') →
    pend.Pairwise (fun a b => a.1 < b.1) →
    pend'.Pairwise (fun a b => a.1 < b.1) ∧
    (∀ x, x ∈ pend' ↔ x ∈ pend ∨ ∃ c ∈ l, x = (c.destination, c)) ∧
    (∀ s, alLookup hold' s = if s ∈ sourcesOf l then some s else alLookup hold s) ∧
    (destinations l).Nodup ∧
    (∀ c ∈ l, c.source ≠ spare ∧ c.destination ≠ spare) ∧
    (∀ c ∈ l, c.destination ∉ pend.map Prod.fst) := by
  intro l
  induction l with
  | nil =>
    intro pend pend' hold hold' h hpair
    simp only [initLoop] at h
    cases h
    refine ⟨hpair, ?_, ?_, by simp [destinations], by simp, by simp⟩
    · intro x
      simp
    · intro s
      simp [sourcesOf]
  | cons c rest ih =>
    intro pend pend' hold hold' h hpair
    simp only [initLoop] at h
    split at h
    · exact absurd h (by simp)
    · rename_i hcond
      split at h
      · exact absurd h (by simp)
      · rename_i hlk
        push_neg at hcond
        have hfresh : c.destination ∉ pend.map Prod.fst :=
          (alLookup_eq_none_iff _ _).mp hlk
        obtain ⟨P1, P2, P3, P4, P5, P6⟩ := ih h (pairwise_pInsert hpair)
        refine ⟨P1, ?_, ?_, ?_, ?_, ?_⟩
        · intro x
          rw [P2 x, mem_pInsert_iff hfresh]
          constructor
          · rintro (hx | hx)
            · rcases hx with rfl | hx
              · exact Or.inr ⟨c, List.mem_cons_self _ _, rfl⟩
              · exact Or.inl hx
            · rcases hx with ⟨c', hc', rfl⟩
              exact Or.inr ⟨c', List.mem_cons_of_mem _ hc', rfl⟩
          · rintro (hx | ⟨c', hc', rfl⟩)
            · exact Or.inl (Or.inr hx)
            · rcases List.mem_cons.mp hc' with rfl | hc''
              · exact Or.inl (Or.inl rfl)
              · exact Or.inr ⟨c', hc'', rfl⟩
        · intro s
          rw [P3 s, alLookup_alInsert]
          have hsrc : s ∈ sourcesOf (c :: rest) ↔ c.source = s ∨ s ∈ sourcesOf rest := by
            simp [sourcesOf, eq_comm]
          by_cases h1 : s ∈ sourcesOf rest
          · rw [if_pos h1, if_pos (hsrc.mpr (Or.inr h1))]
          · by_cases h2 : c.source = s
            · rw [if_neg h1, if_pos h2, if_pos (hsrc.mpr (Or.inl h2)), h2]
            · rw [if_neg h1, if_neg h2, if_neg (fun hm => (hsrc.mp hm).elim h2 h1)]
        · simp only [destinations, List.map_cons, List.nodup_cons]
          refine ⟨?_, P4⟩
          intro hmem
          simp only [destinations, List.mem_map] at hmem
          obtain ⟨c', hc', hdc⟩ := hmem
          have hk : c.destination ∈ (pInsert c.destination c pend).map Prod.fst := by
            have : (c.destination, c) ∈ pInsert c.destination c pend :=
              (mem_pInsert_iff hfresh _).mpr (Or.inl rfl)
            exact List.mem_map_of_mem Prod.fst this
          exact P6 c' hc' (hdc ▸ hk)
        · intro c' hc'
          rcases List.mem_cons.mp hc' with rfl | hc''
          · exact ⟨hcond.1, hcond.2⟩
          · exact P5 c' hc''
        · intro c' hc'
          rcases List.mem_cons.mp hc' with rfl | hc''
          · exact hfresh
          · intro hmem
            refine P6 c' hc'' ?_
            simp only [List.mem_map] at hmem ⊢
            obtain ⟨x, hx, hx1⟩ := hmem
            exact ⟨x, (mem_pInsert_iff hfresh x).mpr (Or.inr hx), hx1⟩

/-- If the batch violates a precondition (relative to the accumulated pending
keys), the first loop aborts with one of the two precondition errors. -/
theorem initLoop_error {spare : Register} :
    ∀ {l : List RegisterCopy} {pend : List (Nat × RegisterCopy)} {hold : List (Nat × Nat)},
    (pend.map Prod.fst).Nodup →
    ((∃ c ∈ l, c.source = spare ∨ c.destination = spare) ∨
      ¬ (pend.map Prod.fst ++ destinations l).Nodup) →
    initLoop spare l pend hold = .error .spareConflict ∨
    initLoop spare l pend hold = .error .dupDest := by
  intro l
  induction l with
  | nil =>
    intro pend hold hk hbad
    rcases hbad with ⟨c, hc, _⟩ | hbad
    · exact absurd hc (List.not_mem_nil c)
    · exact absurd (by simpa [destinations] using hk) hbad
  | cons c rest ih =>
    intro pend hold hk hbad
    by_cases hcond : c.source = spare ∨ c.destination = spare
    · left
      simp [initLoop, hcond]
    · rcases hlk : alLookup pend c.destination with _ | v
      · have hfresh : c.destination ∉ pend.map Prod.fst :=
          (alLookup_eq_none_iff _ _).mp hlk
        have hperm : ((pInsert c.destination c pend).map Prod.fst ++ destinations rest).Perm
            (pend.map Prod.fst ++ destinations (c :: rest)) := by
          have h1 := (keys_pInsert_perm c hfresh).append_right (destinations rest)
          refine h1.trans ?_
          simp only [destinations, List.map_cons, List.cons_append]
          exact List.perm_middle.symm
        have hknew : ((pInsert c.destination c pend).map Prod.fst).Nodup :=
          ((keys_pInsert_perm c hfresh).nodup_iff).mpr (List.nodup_cons.mpr ⟨hfresh, hk⟩)
        have hbad' : (∃ c' ∈ rest, c'.source = spare ∨ c'.destination = spare) ∨
            ¬ ((pInsert c.destination c pend).map Prod.fst ++ destinations rest).Nodup := by
          rcases hbad with ⟨c', hc', hcc⟩ | hbad
          · rcases List.mem_cons.mp hc' with rfl | hc''
            · exact absurd hcc hcond
            · exact Or.inl ⟨c', hc'', hcc⟩
          · exact Or.inr (fun hnd => hbad (hperm.nodup_iff.mp hnd))
        rcases @ih (pInsert c.destination c pend) (alInsert hold c.source c.source)
            hknew hbad' with h1 | h1
        · left
          simp [initLoop, hcond, hlk, h1]
        · right
          simp [initLoop, hcond, hlk, h1]
      · right
        simp [initLoop, hcond, hlk]

/-! ## Characterization of the seeding loop -/

theorem keys_nodup {α : Type} {l : List (Nat × α)}
    (h : l.Pairwise (fun a b => a.1 < b.1)) : (l.map Prod.fst).Nodup :=
  List.pairwise_map.mpr (h.imp fun hab => Nat.ne_of_lt hab)

/-- Key facts about the seeding loop: it only removes entries from `pending`
(keeping it sorted), the multiset of not-yet-materialized copies is preserved,
every seeded copy's destination is missing from the holder map, and every
surviving pending entry's key is present in the holder map. -/
theorem seedAvailable_facts {hold : List (Nat × Nat)} :
    ∀ {l : List RegisterCopy} {pend pend' : List (Nat × RegisterCopy)}
      {avail avail' : List RegisterCopy},
    seedAvailable hold l pend avail = (pend', avail') →
    pend.Pairwise (fun a b => a.1 < b.1) →
    (destinations l).Nodup →
    (∀ c ∈ l, alLookup pend c.destination = some c) →
    (∀ x ∈ pend, alLookup hold x.1 = none → ∃ c ∈ l, c.destination = x.1) →
    (∀ a ∈ avail, alLookup hold a.destination = none) →
    pend'.Pairwise (fun a b => a.1 < b.1) ∧
    (∀ x ∈ pend', x ∈ pend) ∧
    ((pend'.map Prod.snd ++ avail').Perm (pend.map Prod.snd ++ avail)) ∧
    (∀ a ∈ avail', alLookup hold a.destination = none) ∧
    (∀ x ∈ pend', ∃ v, alLookup hold x.1 = some v) := by
  intro l
  induction l with
  | nil =>
    intro pend pend' avail avail' h hpair hnd hlook hcov havail
    simp only [seedAvailable] at h
    cases h
    refine ⟨hpair, fun x hx => hx, List.Perm.refl _, havail, ?_⟩
    intro x hx
    rcases hl : alLookup hold x.1 with _ | v
    · obtain ⟨c, hc, _⟩ := hcov x hx hl
      exact absurd hc (List.not_mem_nil c)
    · exact ⟨v, rfl⟩
  | cons c rest ih =>
    intro pend pend' avail avail' h hpair hnd hlook hcov havail
    simp only [seedAvailable] at h
    simp only [destinations, List.map_cons, List.nodup_cons] at hnd
    rcases hl : alLookup hold c.destination with _ | v <;> rw [hl] at h
    · -- the copy is seeded into `available`
      have hckey : alLookup pend c.destination = some c := hlook c (List.mem_cons_self _ _)
      have hkeys : (pend.map Prod.fst).Nodup := keys_nodup hpair
      have hpair₁ : (pErase pend c.destination).Pairwise (fun a b => a.1 < b.1) :=
        hpair.sublist (pErase_sublist _ _)
      have hlook₁ : ∀ c' ∈ rest, alLookup (pErase pend c.destination) c'.destination = some c' := by
        intro c' hc'
        have hne : c'.destination ≠ c.destination := by
          intro hd
          exact hnd.1 (hd ▸ (List.mem_map_of_mem (·.destination) hc'))
        rw [alLookup_pErase_ne _ _ _ hne]
        exact hlook c' (List.mem_cons_of_mem _ hc')
      have hcov₁ : ∀ x ∈ pErase pend c.destination, alLookup hold x.1 = none →
          ∃ c' ∈ rest, c'.destination = x.1 := by
        intro x hx hxl
        obtain ⟨c', hc', hcd⟩ := hcov x ((pErase_sublist _ _).mem hx) hxl
        rcases List.mem_cons.mp hc' with rfl | hc'' 
        · exfalso
          have : x.1 ∈ (pErase pend c'.destination).map Prod.fst :=
            hcd ▸ List.mem_map_of_mem Prod.fst hx
          exact not_mem_keys_pErase hkeys (hcd ▸ this)
        · exact ⟨c', hc'', hcd⟩
      have havail₁ : ∀ a ∈ c :: avail, alLookup hold a.destination = none := by
        intro a ha
        rcases List.mem_cons.mp ha with rfl | ha'
        · exact hl
        · exact havail a ha'
      obtain ⟨Q1, Q2, Q3, Q4, Q5⟩ := ih h hpair₁ hnd.2 hlook₁ hcov₁ havail₁
      refine ⟨Q1, fun x hx => (pErase_sublist _ _).mem (Q2 x hx), ?_, Q4, Q5⟩
      have hpermP : (pend.map Prod.snd).Perm (c :: (pErase pend c.destination).map Prod.snd) := by
        have := (pErase_perm hckey).map Prod.snd
        simpa using this
      refine (Q3.trans List.perm_middle).trans ?_
      exact (hpermP.append_right avail).symm
    · -- the copy stays pending
      have hcov₁ : ∀ x ∈ pend, alLookup hold x.1 = none →
          ∃ c' ∈ rest, c'.destination = x.1 := by
        intro x hx hxl
        obtain ⟨c', hc', hcd⟩ := hcov x hx hxl
        rcases List.mem_cons.mp hc' with rfl | hc''
        · rw [hcd, hxl] at hl
          simp at hl
        · exact ⟨c', hc'', hcd⟩
      have hlook₁ : ∀ c' ∈ rest, alLookup pend c'.destination = some c' :=
        fun c' hc' => hlook c' (List.mem_cons_of_mem _ hc')
      exact ih h hpair hnd.2 hlook₁ hcov₁ havail

/-- On a batch satisfying both preconditions, the first loop succeeds. -/
theorem initLoop_ok_of_valid {spare : Register} :
    ∀ {l : List RegisterCopy} {pend : List (Nat × RegisterCopy)} {hold : List (Nat × Nat)},
    (destinations l).Nodup →
    (∀ c ∈ l, c.source ≠ spare ∧ c.destination ≠ spare) →
    (∀ c ∈ l, c.destination ∉ pend.map Prod.fst) →
    ∃ pend' hold', initLoop spare l pend hold = .ok (pend', hold') := by
  intro l
  induction l with
  | nil =>
    intro pend hold _ _ _
    exact ⟨pend, hold, rfl⟩
  | cons c rest ih =>
    intro pend hold hnd hsp hkeys
    simp only [destinations, List.map_cons, List.nodup_cons] at hnd
    have hcond : ¬ (c.source = spare ∨ c.destination = spare) := by
      have := hsp c (List.mem_cons_self _ _)
      tauto
    have hfresh : c.destination ∉ pend.map Prod.fst := hkeys c (List.mem_cons_self _ _)
    have hlk : alLookup pend c.destination = none := (alLookup_eq_none_iff _ _).mpr hfresh
    have hkeys' : ∀ c' ∈ rest, c'.destination ∉ (pInsert c.destination c pend).map Prod.fst := by
      intro c' hc' hmem
      have hperm := keys_pInsert_perm c hfresh
      rcases List.mem_cons.mp (hperm.mem_iff.mp hmem) with hd | hd
      · exact hnd.1 (hd ▸ List.mem_map_of_mem (·.destination) hc')
      · exact hkeys c' (List.mem_cons_of_mem _ hc') hd
    obtain ⟨pend', hold', hrec⟩ :=
      @ih (pInsert c.destination c pend) (alInsert hold c.source c.source)
        hnd.2 (fun c' hc' => hsp c' (List.mem_cons_of_mem _ hc')) hkeys'
    refine ⟨pend', hold', ?_⟩
    simp [initLoop, hcond, hlk, hrec]

/-! ## Precondition enforcement (claim C2) -/

/-- C2: `sequentialize_register` aborts (with one of the two precondition
errors, before returning any sequence) whenever the batch has a duplicate
destination or uses the spare as a source or destination; on inputs satisfying
both preconditions it never aborts for either of these reasons. -/
theorem sequentialize_register_precondition (B : List RegisterCopy) (spare : Register) :
    (¬ validInput B spare →
      sequentialize_register B spare = .error .spareConflict ∨
      sequentialize_register B spare = .error .dupDest) ∧
    (validInput B spare →
      sequentialize_register B spare ≠ .error .spareConflict ∧
      sequentialize_register B spare ≠ .error .dupDest) := by
  constructor
  · intro hbad
    have hcond : (∃ c ∈ B, c.source = spare ∨ c.destination = spare) ∨
        ¬ (([] : List (Nat × RegisterCopy)).map Prod.fst ++ destinations B).Nodup := by
      unfold validInput at hbad
      push_neg at hbad
      by_cases hnd : (destinations B).Nodup
      · obtain ⟨c, hc, hcc⟩ := hbad hnd
        refine Or.inl ⟨c, hc, ?_⟩
        tauto
      · refine Or.inr ?_
        simpa using hnd
    rcases @initLoop_error spare B [] [] (by simp) hcond with h1 | h1 <;>
      [left; right] <;> simp [sequentialize_register, h1]
  · intro hv
    obtain ⟨pend', hold', hinit⟩ :=
      @initLoop_ok_of_valid spare B [] [] hv.1 hv.2 (by simp)
    have hseq : sequentialize_register B spare =
        (match seedAvailable hold' B pend' [] with
        | (pend2, avail) =>
          runLoop spare (loopMeasure ⟨[], hold', pend2, avail⟩ + 1) ⟨[], hold', pend2, avail⟩) := by
      simp [sequentialize_register, hinit]
    rcases hsa : seedAvailable hold' B pend' [] with ⟨pend2, avail⟩
    rw [hsa] at hseq
    rw [hseq]
    exact runLoop_ne_precondition

theorem sequentialize_register_precondition_witness :
    (sequentialize_register [⟨1, 2⟩, ⟨3, 2⟩] 5 = .error .spareConflict ∨
      sequentialize_register [⟨1, 2⟩, ⟨3, 2⟩] 5 = .error .dupDest) ∧
    (sequentialize_register [⟨1, 2⟩, ⟨2, 3⟩] 5 ≠ .error .spareConflict ∧
      sequentialize_register [⟨1, 2⟩, ⟨2, 3⟩] 5 ≠ .error .dupDest) :=
  ⟨(sequentialize_register_precondition [⟨1, 2⟩, ⟨3, 2⟩] 5).1 (by decide),
    (sequentialize_register_precondition [⟨1, 2⟩, ⟨2, 3⟩] 5).2 (by decide)⟩

/-! ## The loop invariant -/

/-- Register-file contents after executing the copies emitted so far, starting
from the identity file (register `r` initially holds the token `r`). -/
def stVal (st : SeqState) : Register → Nat :=
  execSeq st.sequentialized id

/-- The invariant of the main loop of `sequentialize_register`, relative to
the input batch `B` and the spare register:

* `pendDest`/`pendSorted`: `pending` is keyed by the destinations of its
  copies and sorted strictly by key;
* `subB`/`remNodup`: the not-yet-materialized copies all come from `B` and
  have pairwise distinct destinations;
* `holderVal`: for every remaining copy, `current_holder` maps its source to a
  register that presently holds that source's original value;
* `availSafe`: no available copy's destination is the current holder of a
  value needed by a remaining copy with a different source;
* `pendFresh`: every pending key still maps to itself in `current_holder`,
  still holds its own original value, and all batch copies reading it are
  still remaining (with at least one such copy existing);
* `doneVal`: every already-materialized copy's destination holds the original
  value of its source;
* `outDests`: everything emitted so far writes to a batch destination or to
  the spare. -/
structure LoopInv (B : List RegisterCopy) (spare : Register) (st : SeqState) : Prop where
  pendDest : ∀ x ∈ st.pending, x.1 = x.2.destination
  pendSorted : st.pending.Pairwise (fun a b => a.1 < b.1)
  subB : ∀ c ∈ remaining st, c ∈ B
  remNodup : ((remaining st).map (·.destination)).Nodup
  holderVal : ∀ c ∈ remaining st, ∃ h, alLookup st.current_holder c.source = some h ∧
      stVal st h = c.source
  availSafe : ∀ c ∈ st.available, ∀ c' ∈ remaining st, c'.source ≠ c.source →
      ∀ h', alLookup st.current_holder c'.source = some h' → h' ≠ c.destination
  pendFresh : ∀ k ∈ pendKeys st, alLookup st.current_holder k = some k ∧
      stVal st k = k ∧ (∃ c ∈ B, c.source = k) ∧
      (∀ c ∈ B, c.source = k → c ∈ remaining st)
  doneVal : ∀ c ∈ B, c ∉ remaining st → stVal st c.destination = c.source
  outDests : ∀ c ∈ st.sequentialized, c.destination ∈ destinations B ∨ c.destination = spare

/-! ## The dependency map and its iteration -/

theorem srcMap_eq_of_mem {B : List RegisterCopy} {c : RegisterCopy}
    (hnd : (destinations B).Nodup) (hc : c ∈ B) :
    srcMap B c.destination = some c.source := by
  induction B with
  | nil => cases hc
  | cons b rest ih =>
    simp only [destinations, List.map_cons, List.nodup_cons] at hnd
    rcases List.mem_cons.mp hc with rfl | hc'
    · simp [srcMap]
    · have hne : b.destination ≠ c.destination := by
        intro h
        exact hnd.1 (h ▸ List.mem_map_of_mem (·.destination) hc')
      have hdec : (decide (b.destination = c.destination)) = false := by
        simp [hne]
      simp only [srcMap, List.find?, hdec]
      simpa [srcMap] using ih hnd.2 hc'

theorem srcIter_succ_right (B : List RegisterCopy) (n : Nat) (r : Register) :
    srcIter B (n + 1) r = (srcIter B n r).bind (fun s => srcMap B s) := by
  induction n generalizing r with
  | zero =>
    rcases h : srcMap B r with _ | s <;> simp [srcIter, h]
  | succ n ih =>
    rcases h : srcMap B r with _ | s
    · simp [srcIter, h]
    · have h1 : srcIter B (n + 1 + 1) r = srcIter B (n + 1) s := by
        simp [srcIter, h]
      have h2 : srcIter B (n + 1) r = srcIter B n s := by
        simp [srcIter, h]
      rw [h1, h2, ih s]

/-! ## Structure of a quiescent state: the pending copies form cycles -/

/-- At a quiescent state (`available` empty), following the dependency map
from any pending key lands on a pending key, and the dependency map is
injective on pending keys. -/
theorem quiescent_closure {B : List RegisterCopy} {spare : Register} {st : SeqState}
    (hB : validInput B spare) (inv : LoopInv B spare st) (hA : st.available = []) :
    (∀ k ∈ pendKeys st, ∃ s, srcMap B k = some s ∧ s ∈ pendKeys st) ∧
    (∀ k1 ∈ pendKeys st, ∀ k2 ∈ pendKeys st, srcMap B k1 = srcMap B k2 → k1 = k2) := by
  have hremaining : remaining st = pendingCopies st := by
    simp [remaining, hA]
  have hentry : ∀ k ∈ pendKeys st, ∃ p, (k, p) ∈ st.pending ∧ p.destination = k := by
    intro k hk
    simp only [pendKeys, List.mem_map] at hk
    obtain ⟨x, hx, hx1⟩ := hk
    refine ⟨x.2, ?_, ?_⟩
    · rw [← hx1]
      simpa using hx
    · rw [← inv.pendDest x hx]
      exact hx1
  have hsrcMap : ∀ k ∈ pendKeys st, ∃ p, (k, p) ∈ st.pending ∧ srcMap B k = some p.source := by
    intro k hk
    obtain ⟨p, hp, hpd⟩ := hentry k hk
    have hpB : p ∈ B := inv.subB p (by
      rw [hremaining]
      exact List.mem_map_of_mem Prod.snd hp)
    exact ⟨p, hp, hpd ▸ srcMap_eq_of_mem hB.1 hpB⟩
  have hknodup : (pendKeys st).Nodup := keys_nodup inv.pendSorted
  have hsub : (pendKeys st).toFinset ⊆
      ((pendingCopies st).map (fun c => c.source)).toFinset := by
    intro k hk
    rw [List.mem_toFinset] at hk ⊢
    obtain ⟨_, _, hex, hall⟩ := inv.pendFresh k hk
    obtain ⟨c, hcB, hcs⟩ := hex
    have hcP : c ∈ pendingCopies st := by
      rw [← hremaining]
      exact hall c hcB hcs
    exact hcs ▸ List.mem_map_of_mem (fun c => c.source) hcP
  have hcard1 : (pendKeys st).toFinset.card = st.pending.length := by
    rw [List.toFinset_card_of_nodup hknodup]
    exact List.length_map _ _
  have hlen2 : ((pendingCopies st).map (fun c => c.source)).length = st.pending.length := by
    simp [pendingCopies]
  have hcard2 : ((pendingCopies st).map (fun c => c.source)).toFinset.card ≤
      st.pending.length := le_trans (List.toFinset_card_le _) (le_of_eq hlen2)
  have hFeq : (pendKeys st).toFinset =
      ((pendingCopies st).map (fun c => c.source)).toFinset :=
    Finset.eq_of_subset_of_card_le hsub (by omega)
  have hsnodup : ((pendingCopies st).map (fun c => c.source)).Nodup := by
    have hcc : ((pendingCopies st).map (fun c => c.source)).toFinset.card =
        ((pendingCopies st).map (fun c => c.source)).length := by
      rw [← hFeq, hcard1, hlen2]
    have hcast : (((pendingCopies st).map (fun c => c.source) : List Nat) :
          Multiset Nat).toFinset.card =
        Multiset.card (((pendingCopies st).map (fun c => c.source) : List Nat) :
          Multiset Nat) := by
      simpa using hcc
    exact Multiset.toFinset_card_eq_card_iff_nodup.mp hcast
  constructor
  · intro k hk
    obtain ⟨p, hp, hmap⟩ := hsrcMap k hk
    refine ⟨p.source, hmap, ?_⟩
    have hmem : p.source ∈ (pendingCopies st).map (fun c => c.source) :=
      List.mem_map_of_mem (fun c => c.source) (List.mem_map_of_mem Prod.snd hp)
    have h2 : p.source ∈ ((pendingCopies st).map (fun c => c.source)).toFinset :=
      List.mem_toFinset.mpr hmem
    rw [← hFeq] at h2
    exact List.mem_toFinset.mp h2
  · intro k1 hk1 k2 hk2 heq
    obtain ⟨p1, hp1, hm1⟩ := hsrcMap k1 hk1
    obtain ⟨p2, hp2, hm2⟩ := hsrcMap k2 hk2
    rw [hm1, hm2] at heq
    have hps : p1.source = p2.source := Option.some.inj heq
    have hpp : p1 = p2 :=
      List.inj_on_of_nodup_map hsnodup (List.mem_map_of_mem Prod.snd hp1)
        (List.mem_map_of_mem Prod.snd hp2) hps
    have d1 : k1 = p1.destination := inv.pendDest (k1, p1) hp1
    have d2 : k2 = p2.destination := inv.pendDest (k2, p2) hp2
    rw [d1, d2, hpp]

/-- At a quiescent state, iterating the dependency map from a pending key
stays within the pending keys. -/
theorem quiescent_iter_mem {B : List RegisterCopy} {spare : Register} {st : SeqState}
    (hB : validInput B spare) (inv : LoopInv B spare st) (hA : st.available = []) :
    ∀ (n : Nat), ∀ k ∈ pendKeys st, ∃ m ∈ pendKeys st, srcIter B n k = some m := by
  have hcl := (quiescent_closure hB inv hA).1
  intro n
  induction n with
  | zero =>
    intro k hk
    exact ⟨k, hk, rfl⟩
  | succ n ih =>
    intro k hk
    obtain ⟨s, hs, hsk⟩ := hcl k hk
    obtain ⟨m, hm, hit⟩ := ih s hsk
    refine ⟨m, hm, ?_⟩
    simp [srcIter, hs, hit]

/-- At a quiescent state the dependency map is injective on pending keys, so
an eventually-periodic pending key is genuinely periodic. -/
theorem quiescent_cancel {B : List RegisterCopy} {spare : Register} {st : SeqState}
    (hB : validInput B spare) (inv : LoopInv B spare st) (hA : st.available = [])
    (p : Nat) :
    ∀ (i : Nat), ∀ k ∈ pendKeys st, srcIter B (i + p) k = srcIter B i k →
    srcIter B p k = some k := by
  have hcl := (quiescent_closure hB inv hA).1
  have hinj := (quiescent_closure hB inv hA).2
  intro i
  induction i with
  | zero =>
    intro k hk h
    simpa [srcIter] using h
  | succ i ih =>
    intro k hk h
    obtain ⟨s, hs, hsk⟩ := hcl k hk
    have hL : srcIter B (i + 1 + p) k = srcIter B (i + p) s := by
      have harith : i + 1 + p = (i + p) + 1 := by omega
      rw [harith]
      simp [srcIter, hs]
    have hR : srcIter B (i + 1) k = srcIter B i s := by
      simp [srcIter, hs]
    rw [hL, hR] at h
    have hps : srcIter B p s = some s := ih s hsk h
    obtain ⟨y, hy, hiy⟩ := quiescent_iter_mem hB inv hA p k hk
    have h1 : srcIter B (p + 1) k = some s := by
      simp [srcIter, hs, hps]
    have h2 := srcIter_succ_right B p k
    rw [h1, hiy] at h2
    have hys : srcMap B y = some s := by
      simpa using h2.symm
    have hyk : y = k := hinj y hy k hk (by rw [hys, hs])
    rw [hiy, hyk]

/-- At a quiescent state, every pending key lies on a cycle of the batch's
dependency graph. -/
theorem quiescent_cyclic {B : List RegisterCopy} {spare : Register} {st : SeqState}
    (hB : validInput B spare) (inv : LoopInv B spare st) (hA : st.available = []) :
    ∀ k ∈ pendKeys st, cyclicReg B k := by
  intro k hk
  have hkeysub : ∀ m ∈ pendKeys st, m ∈ destinations B := by
    intro m hm
    simp only [pendKeys, List.mem_map] at hm
    obtain ⟨x, hx, hx1⟩ := hm
    have hxB : x.2 ∈ B := inv.subB x.2 (by
      simp only [remaining]
      exact List.mem_append_left _ (List.mem_map_of_mem Prod.snd hx))
    have hxd : x.1 = x.2.destination := inv.pendDest x hx
    rw [← hx1, hxd]
    exact List.mem_map_of_mem (·.destination) hxB
  have hN : (pendKeys st).toFinset.card ≤ B.length := by
    have hsub : (pendKeys st).toFinset ⊆ (destinations B).toFinset := by
      intro m hm
      exact List.mem_toFinset.mpr (hkeysub m (List.mem_toFinset.mp hm))
    calc (pendKeys st).toFinset.card ≤ (destinations B).toFinset.card :=
          Finset.card_le_card hsub
      _ ≤ (destinations B).length := List.toFinset_card_le _
      _ = B.length := List.length_map _ _
  set N := (pendKeys st).toFinset.card with hNdef
  have haux : ∀ i j : Nat, i < j → j ≤ N → srcIter B i k = srcIter B j k →
      cyclicReg B k := by
    intro i j hij hjN hiter
    have hp1 : 1 ≤ j - i := by omega
    have harith : i + (j - i) = j := by omega
    have hper : srcIter B (j - i) k = some k := by
      refine quiescent_cancel hB inv hA (j - i) i k hk ?_
      rw [harith, hiter]
    refine ⟨j - i, ?_, hper⟩
    rw [Finset.mem_Icc]
    constructor
    · exact hp1
    · omega
  have hmaps : ∀ i ∈ Finset.range (N + 1),
      (srcIter B i k).getD 0 ∈ (pendKeys st).toFinset := by
    intro i _
    obtain ⟨m, hm, hit⟩ := quiescent_iter_mem hB inv hA i k hk
    rw [hit]
    exact List.mem_toFinset.mpr hm
  have hcard : (pendKeys st).toFinset.card < (Finset.range (N + 1)).card := by
    rw [Finset.card_range]
    omega
  obtain ⟨i, hi, j, hj, hij, hfij⟩ :=
    Finset.exists_ne_map_eq_of_card_lt_of_maps_to hcard hmaps
  rw [Finset.mem_range] at hi hj
  have hiterij : srcIter B i k = srcIter B j k := by
    obtain ⟨mi, _, hmi⟩ := quiescent_iter_mem hB inv hA i k hk
    obtain ⟨mj, _, hmj⟩ := quiescent_iter_mem hB inv hA j k hk
    rw [hmi, hmj]
    rw [hmi, hmj] at hfij
    simpa using hfij
  rcases Nat.lt_or_ge i j with hlt | hge
  · exact haux i j hlt (by omega) hiterij
  · have hlt : j < i := lt_of_le_of_ne hge (Ne.symm hij)
    exact haux j i hlt (by omega) hiterij.symm

/-- At a quiescent state, the first (least) pending key is the least register
of its cycle: exactly the register the eviction step picks. -/
theorem quiescent_head_cycleMin {B : List RegisterCopy} {spare : Register} {st : SeqState}
    (hB : validInput B spare) (inv : LoopInv B spare st) (hA : st.available = [])
    {d : Nat} {c : RegisterCopy} {restP : List (Nat × RegisterCopy)}
    (hP : st.pending = (d, c) :: restP) :
    d ∈ cycleMins B := by
  have hdk : d ∈ pendKeys st := by
    simp [pendKeys, hP]
  have hmin : ∀ m ∈ pendKeys st, d ≤ m := by
    intro m hm
    simp only [pendKeys, hP, List.map_cons, List.mem_cons] at hm
    rcases hm with rfl | hm
    · exact le_refl m
    · have hsor := inv.pendSorted
      rw [hP, List.pairwise_cons] at hsor
      simp only [List.mem_map] at hm
      obtain ⟨x, hx, hx1⟩ := hm
      exact le_of_lt (hx1 ▸ hsor.1 x hx)
  have hdB : d ∈ destinations B := by
    have hcB : c ∈ B := inv.subB c (by
      simp only [remaining, pendingCopies, hP]
      exact List.mem_append_left _ (List.mem_cons_self _ _))
    have hcd : d = c.destination := inv.pendDest (d, c) (by rw [hP]; exact List.mem_cons_self _ _)
    rw [hcd]
    exact List.mem_map_of_mem (·.destination) hcB
  rw [cycleMins, Finset.mem_filter]
  refine ⟨List.mem_toFinset.mpr hdB, quiescent_cyclic hB inv hA d hdk, ?_⟩
  intro m _ hreach
  obtain ⟨n, _, hiter⟩ := hreach
  obtain ⟨m', hm', hiter'⟩ := quiescent_iter_mem hB inv hA n d hdk
  rw [hiter] at hiter'
  have : m = m' := Option.some.inj hiter'
  rw [this]
  exact hmin m' hm'

/-! ## Helpers for the preservation proof -/

theorem stVal_append (st : SeqState) (e : RegisterCopy) (r : Register) :
    execSeq (st.sequentialized ++ [e]) id r =
      if r = e.destination then stVal st e.source else stVal st r := by
  rw [execSeq_append]
  rfl

theorem remaining_dest_ne {st : SeqState}
    (hnd : ((remaining st).map (·.destination)).Nodup)
    {p q : RegisterCopy} (hp : p ∈ pendingCopies st) (hq : q ∈ st.available) :
    p.destination ≠ q.destination := by
  intro h
  rw [remaining, List.map_append, List.nodup_append] at hnd
  exact hnd.2.2 (List.mem_map_of_mem (·.destination) hp)
    (h ▸ List.mem_map_of_mem (·.destination) hq)

theorem remaining_dest_inj {st : SeqState}
    (hnd : ((remaining st).map (·.destination)).Nodup)
    {p q : RegisterCopy} (hp : p ∈ remaining st) (hq : q ∈ remaining st)
    (h : p.destination = q.destination) : p = q :=
  List.inj_on_of_nodup_map hnd hp hq h

theorem mem_pendingCopies_of_entry {st : SeqState} {k : Nat} {p : RegisterCopy}
    (h : (k, p) ∈ st.pending) : p ∈ pendingCopies st :=
  List.mem_map_of_mem Prod.snd h

theorem mem_remaining_of_pending {st : SeqState} {p : RegisterCopy}
    (h : p ∈ pendingCopies st) : p ∈ remaining st :=
  List.mem_append_left _ h

theorem mem_remaining_of_available {st : SeqState} {p : RegisterCopy}
    (h : p ∈ st.available) : p ∈ remaining st :=
  List.mem_append_right _ h

theorem mem_pendKeys_of_entry {st : SeqState} {k : Nat} {p : RegisterCopy}
    (h : (k, p) ∈ st.pending) : k ∈ pendKeys st :=
  List.mem_map_of_mem Prod.fst h

/-- Preservation of the loop invariant by a materialization step that frees a
pending copy (the `pending.remove(source)` hit of the source). -/
theorem step_preserve_hit {B : List RegisterCopy} {spare : Register} {st : SeqState}
    {copy : RegisterCopy} {restA : List RegisterCopy} {h : Nat} {ac : RegisterCopy}
    (hB : validInput B spare) (inv : LoopInv B spare st)
    (hA : st.available = copy :: restA)
    (hH : alLookup st.current_holder copy.source = some h)
    (hPend : alLookup st.pending h = some ac) :
    LoopInv B spare ⟨st.sequentialized ++ [⟨h, copy.destination⟩],
      alInsert st.current_holder copy.source copy.destination,
      pErase st.pending h, ac :: restA⟩ ∧
    (remaining st).Perm (copy ::
      remaining ⟨st.sequentialized ++ [⟨h, copy.destination⟩],
        alInsert st.current_holder copy.source copy.destination,
        pErase st.pending h, ac :: restA⟩) := by
  set st' : SeqState := ⟨st.sequentialized ++ [⟨h, copy.destination⟩],
      alInsert st.current_holder copy.source copy.destination,
      pErase st.pending h, ac :: restA⟩ with hst'
  have hcopyAvail : copy ∈ st.available := by
    rw [hA]
    exact List.mem_cons_self _ _
  have hcopyRem : copy ∈ remaining st := mem_remaining_of_available hcopyAvail
  have hcopyB : copy ∈ B := inv.subB copy hcopyRem
  have hVh : stVal st h = copy.source := by
    obtain ⟨h₀, hh₀, hv₀⟩ := inv.holderVal copy hcopyRem
    rw [hH] at hh₀
    have he : h₀ = h := (Option.some.inj hh₀).symm
    rw [he] at hv₀
    exact hv₀
  have hacEntry : (h, ac) ∈ st.pending := alLookup_mem hPend
  have hacP : ac ∈ pendingCopies st := mem_pendingCopies_of_entry hacEntry
  have hacRem : ac ∈ remaining st := mem_remaining_of_pending hacP
  have hhd : h = ac.destination := inv.pendDest (h, ac) hacEntry
  have hne_hd : h ≠ copy.destination := by
    rw [hhd]
    exact remaining_dest_ne inv.remNodup hacP hcopyAvail
  have hkeysnd : (pendKeys st).Nodup := keys_nodup inv.pendSorted
  have hkeysnd' : (st.pending.map Prod.fst).Nodup := hkeysnd
  have hpermP : st.pending.Perm ((h, ac) :: pErase st.pending h) := pErase_perm hPend
  have hpermCopies : (pendingCopies st).Perm (ac :: pendingCopies st') := by
    have := hpermP.map Prod.snd
    simpa [pendingCopies] using this
  have hrem' : remaining st' = pendingCopies st' ++ (ac :: restA) := rfl
  have hpermMain : (remaining st).Perm (copy :: remaining st') := by
    have h1 : remaining st = pendingCopies st ++ (copy :: restA) := by
      rw [remaining, hA]
    rw [h1]
    refine List.perm_middle.trans ?_
    refine List.Perm.cons copy ?_
    have h2 : (pendingCopies st ++ restA).Perm ((ac :: pendingCopies st') ++ restA) :=
      hpermCopies.append_right restA
    refine h2.trans ?_
    rw [hrem']
    exact List.perm_middle.symm
  have hsubRem : ∀ c' ∈ remaining st', c' ∈ remaining st :=
    fun c' hc' => hpermMain.mem_iff.mpr (List.mem_cons_of_mem _ hc')
  have hremND' : ((copy :: remaining st').map (·.destination)).Nodup :=
    (hpermMain.map (·.destination)).nodup_iff.mp inv.remNodup
  have hremND_split : copy.destination ∉ (remaining st').map (·.destination) ∧
      ((remaining st').map (·.destination)).Nodup := by
    have h1 := hremND'
    rw [List.map_cons, List.nodup_cons] at h1
    exact h1
  have hremND'' : ((remaining st').map (·.destination)).Nodup := hremND_split.2
  have hcopy_notin : copy ∉ remaining st' := fun hmem =>
    hremND_split.1 (List.mem_map_of_mem (·.destination) hmem)
  have hV' : ∀ r, stVal st' r =
      if r = copy.destination then copy.source else stVal st r := by
    intro r
    have hval := stVal_append st ⟨h, copy.destination⟩ r
    rw [show (⟨h, copy.destination⟩ : RegisterCopy).source = h from rfl,
      show (⟨h, copy.destination⟩ : RegisterCopy).destination = copy.destination from rfl,
      hVh] at hval
    exact hval
  have hs_keys : copy.source ∈ pendKeys st → h = copy.source := by
    intro hsk
    have hfr := (inv.pendFresh _ hsk).1
    rw [hH] at hfr
    exact Option.some.inj hfr
  have hkeys_sub : ∀ k ∈ pendKeys st', k ∈ pendKeys st := by
    intro k hk
    exact ((pErase_sublist st.pending h).map Prod.fst).subset hk
  have hs_not_keys' : copy.source ∉ pendKeys st' := by
    by_cases hsk : copy.source ∈ pendKeys st
    · rw [← hs_keys hsk]
      exact not_mem_keys_pErase hkeysnd'
    · intro hmem
      exact hsk (hkeys_sub _ hmem)
  have hBinj : ∀ p ∈ B, ∀ q ∈ B, p.destination = q.destination → p = q := by
    intro p hp q hq hpq
    exact List.inj_on_of_nodup_map hB.1 hp hq hpq
  have havND : ((copy :: restA).map (·.destination)).Nodup := by
    have hrn := inv.remNodup
    rw [remaining, hA, List.map_append, List.nodup_append] at hrn
    exact hrn.2.1
  have hrest_ne : ∀ c ∈ restA, c.destination ≠ copy.destination := by
    have hnc := havND
    rw [List.map_cons, List.nodup_cons] at hnc
    intro c hc heq
    exact hnc.1 (heq ▸ List.mem_map_of_mem (·.destination) hc)
  refine ⟨⟨?_, ?_, ?_, ?_, ?_, ?_, ?_, ?_, ?_⟩, hpermMain⟩
  · -- pendDest
    intro x hx
    exact inv.pendDest x ((pErase_sublist _ _).subset hx)
  · -- pendSorted
    exact inv.pendSorted.sublist (pErase_sublist _ _)
  · -- subB
    intro c' hc'
    exact inv.subB c' (hsubRem c' hc')
  · -- remNodup
    exact hremND''
  · -- holderVal
    intro c' hc'
    have hc'Rem : c' ∈ remaining st := hsubRem c' hc'
    by_cases hcs : c'.source = copy.source
    · refine ⟨copy.destination, ?_, ?_⟩
      · rw [alLookup_alInsert, if_pos hcs.symm]
      · rw [hV' copy.destination, if_pos rfl, hcs]
    · obtain ⟨h', hh', hv'⟩ := inv.holderVal c' hc'Rem
      refine ⟨h', ?_, ?_⟩
      · rw [alLookup_alInsert, if_neg (fun hh => hcs hh.symm)]
        exact hh'
      · rw [hV' h', if_neg (inv.availSafe copy hcopyAvail c' hc'Rem hcs h' hh')]
        exact hv'
  · -- availSafe
    intro c hc c' hc' hcs h'' hh''
    have hc'Rem : c' ∈ remaining st := hsubRem c' hc'
    rw [alLookup_alInsert] at hh''
    by_cases hsc' : copy.source = c'.source
    · rw [if_pos hsc'] at hh''
      have hdd : h'' = copy.destination := (Option.some.inj hh'').symm
      rw [hdd]
      rcases List.mem_cons.mp hc with rfl | hcr
      · rw [← hhd]
        exact fun he => hne_hd he.symm
      · intro he
        have : c ∈ remaining st' := mem_remaining_of_available (by
          show c ∈ ac :: restA
          exact List.mem_cons_of_mem _ hcr)
        exact hcopy_notin (remaining_dest_inj inv.remNodup hcopyRem
          (hsubRem c this) he ▸ this)
    · rw [if_neg hsc'] at hh''
      rcases List.mem_cons.mp hc with rfl | hcr
      · -- c = ac; goal h'' ≠ ac.destination = h
        rw [← hhd]
        intro he
        obtain ⟨h₀, hh₀, hv₀⟩ := inv.holderVal c' hc'Rem
        rw [hh''] at hh₀
        have h1 : h₀ = h'' := (Option.some.inj hh₀).symm
        rw [h1, he, hVh] at hv₀
        exact hsc' hv₀
      · exact inv.availSafe c (by rw [hA]; exact List.mem_cons_of_mem _ hcr)
          c' hc'Rem hcs h'' hh''
  · -- pendFresh
    intro k hk
    have hkold : k ∈ pendKeys st := hkeys_sub k hk
    have hkne_s : k ≠ copy.source := fun he => hs_not_keys' (he ▸ hk)
    obtain ⟨hfr1, hfr2, hfr3, hfr4⟩ := inv.pendFresh k hkold
    obtain ⟨x, hx, hxk⟩ := List.mem_map.mp hk
    have hxP : x ∈ st.pending := (pErase_sublist _ _).subset hx
    have hkdd : k ≠ copy.destination := by
      rw [← hxk, inv.pendDest x hxP]
      exact remaining_dest_ne inv.remNodup (mem_pendingCopies_of_entry
        (show (x.1, x.2) ∈ st.pending by simpa using hxP)) hcopyAvail
    refine ⟨?_, ?_, hfr3, ?_⟩
    · rw [alLookup_alInsert, if_neg (fun he => hkne_s he.symm)]
      exact hfr1
    · rw [hV' k, if_neg hkdd]
      exact hfr2
    · intro c'' hc''B hc''s
      have hc''Rem : c'' ∈ remaining st := hfr4 c'' hc''B hc''s
      rcases List.mem_cons.mp (hpermMain.mem_iff.mp hc''Rem) with rfl | hmem
      · exact absurd hc''s hkne_s.symm
      · exact hmem
  · -- doneVal
    intro c'' hc''B hc''notin
    by_cases hceq : c'' = copy
    · rw [hceq, hV' copy.destination, if_pos rfl]
    · have hc''old : c'' ∉ remaining st := by
        intro hmem
        rcases List.mem_cons.mp (hpermMain.mem_iff.mp hmem) with he | hmem'
        · exact hceq he
        · exact hc''notin hmem'
      have hold := inv.doneVal c'' hc''B hc''old
      rw [hV' c''.destination, if_neg (fun he => hceq (hBinj c'' hc''B copy hcopyB he))]
      exact hold
  · -- outDests
    intro c'' hc''
    rcases List.mem_append.mp hc'' with hmem | hmem
    · exact inv.outDests c'' hmem
    · have : c'' = ⟨h, copy.destination⟩ := by simpa using hmem
      rw [this]
      exact Or.inl (List.mem_map_of_mem (·.destination) hcopyB)

/-- Preservation of the loop invariant by a materialization step whose holder
is the spare register (the spare is reclaimed: the holder entry is repointed
to the new destination). -/
theorem step_preserve_spare {B : List RegisterCopy} {spare : Register} {st : SeqState}
    {copy : RegisterCopy} {restA : List RegisterCopy}
    (hB : validInput B spare) (inv : LoopInv B spare st)
    (hA : st.available = copy :: restA)
    (hH : alLookup st.current_holder copy.source = some spare)
    (hPendN : alLookup st.pending spare = none) :
    LoopInv B spare ⟨st.sequentialized ++ [⟨spare, copy.destination⟩],
      alInsert st.current_holder copy.source copy.destination,
      st.pending, restA⟩ ∧
    (remaining st).Perm (copy ::
      remaining ⟨st.sequentialized ++ [⟨spare, copy.destination⟩],
        alInsert st.current_holder copy.source copy.destination,
        st.pending, restA⟩) := by
  set st' : SeqState := ⟨st.sequentialized ++ [⟨spare, copy.destination⟩],
      alInsert st.current_holder copy.source copy.destination,
      st.pending, restA⟩ with hst'
  have hcopyAvail : copy ∈ st.available := by
    rw [hA]
    exact List.mem_cons_self _ _
  have hcopyRem : copy ∈ remaining st := mem_remaining_of_available hcopyAvail
  have hcopyB : copy ∈ B := inv.subB copy hcopyRem
  have hsne : copy.source ≠ spare := (hB.2 copy hcopyB).1
  have hVh : stVal st spare = copy.source := by
    obtain ⟨h₀, hh₀, hv₀⟩ := inv.holderVal copy hcopyRem
    rw [hH] at hh₀
    have he : h₀ = spare := (Option.some.inj hh₀).symm
    rw [he] at hv₀
    exact hv₀
  have hs_not_keys : copy.source ∉ pendKeys st := by
    intro hsk
    have hfr := (inv.pendFresh _ hsk).1
    rw [hH] at hfr
    exact hsne (Option.some.inj hfr).symm
  have hrem' : remaining st' = pendingCopies st ++ restA := rfl
  have hpermMain : (remaining st).Perm (copy :: remaining st') := by
    have h1 : remaining st = pendingCopies st ++ (copy :: restA) := by
      rw [remaining, hA]
    rw [h1, hrem']
    exact List.perm_middle
  have hsubRem : ∀ c' ∈ remaining st', c' ∈ remaining st :=
    fun c' hc' => hpermMain.mem_iff.mpr (List.mem_cons_of_mem _ hc')
  have hremND' : ((copy :: remaining st').map (·.destination)).Nodup :=
    (hpermMain.map (·.destination)).nodup_iff.mp inv.remNodup
  have hremND_split : copy.destination ∉ (remaining st').map (·.destination) ∧
      ((remaining st').map (·.destination)).Nodup := by
    have h1 := hremND'
    rw [List.map_cons, List.nodup_cons] at h1
    exact h1
  have hV' : ∀ r, stVal st' r =
      if r = copy.destination then copy.source else stVal st r := by
    intro r
    have hval := stVal_append st ⟨spare, copy.destination⟩ r
    rw [show (⟨spare, copy.destination⟩ : RegisterCopy).source = spare from rfl,
      show (⟨spare, copy.destination⟩ : RegisterCopy).destination = copy.destination from rfl,
      hVh] at hval
    exact hval
  have hBinj : ∀ p ∈ B, ∀ q ∈ B, p.destination = q.destination → p = q := by
    intro p hp q hq hpq
    exact List.inj_on_of_nodup_map hB.1 hp hq hpq
  have havND : ((copy :: restA).map (·.destination)).Nodup := by
    have hrn := inv.remNodup
    rw [remaining, hA, List.map_append, List.nodup_append] at hrn
    exact hrn.2.1
  have hrest_ne : ∀ c ∈ restA, c.destination ≠ copy.destination := by
    have hnc := havND
    rw [List.map_cons, List.nodup_cons] at hnc
    intro c hc heq
    exact hnc.1 (heq ▸ List.mem_map_of_mem (·.destination) hc)
  have hkey_ne_dd : ∀ k ∈ pendKeys st, k ≠ copy.destination := by
    intro k hk
    obtain ⟨x, hx, hxk⟩ := List.mem_map.mp hk
    rw [← hxk, inv.pendDest x hx]
    exact remaining_dest_ne inv.remNodup (mem_pendingCopies_of_entry
      (show (x.1, x.2) ∈ st.pending by simpa using hx)) hcopyAvail
  refine ⟨⟨?_, ?_, ?_, ?_, ?_, ?_, ?_, ?_, ?_⟩, hpermMain⟩
  · exact inv.pendDest
  · exact inv.pendSorted
  · intro c' hc'
    exact inv.subB c' (hsubRem c' hc')
  · exact hremND_split.2
  · -- holderVal
    intro c' hc'
    have hc'Rem : c' ∈ remaining st := hsubRem c' hc'
    by_cases hcs : c'.source = copy.source
    · refine ⟨copy.destination, ?_, ?_⟩
      · rw [alLookup_alInsert, if_pos hcs.symm]
      · rw [hV' copy.destination, if_pos rfl, hcs]
    · obtain ⟨h', hh', hv'⟩ := inv.holderVal c' hc'Rem
      refine ⟨h', ?_, ?_⟩
      · rw [alLookup_alInsert, if_neg (fun hh => hcs hh.symm)]
        exact hh'
      · rw [hV' h', if_neg (inv.availSafe copy hcopyAvail c' hc'Rem hcs h' hh')]
        exact hv'
  · -- availSafe
    intro c hc c' hc' hcs h'' hh''
    have hc'Rem : c' ∈ remaining st := hsubRem c' hc'
    have hcA : c ∈ st.available := by
      rw [hA]
      exact List.mem_cons_of_mem _ hc
    rw [alLookup_alInsert] at hh''
    by_cases hsc' : copy.source = c'.source
    · rw [if_pos hsc'] at hh''
      have hdd : h'' = copy.destination := (Option.some.inj hh'').symm
      rw [hdd]
      exact fun he => hrest_ne c hc he.symm
    · rw [if_neg hsc'] at hh''
      exact inv.availSafe c hcA c' hc'Rem hcs h'' hh''
  · -- pendFresh
    intro k hk
    have hkne_s : k ≠ copy.source := fun he => hs_not_keys (he ▸ hk)
    obtain ⟨hfr1, hfr2, hfr3, hfr4⟩ := inv.pendFresh k hk
    refine ⟨?_, ?_, hfr3, ?_⟩
    · rw [alLookup_alInsert, if_neg (fun he => hkne_s he.symm)]
      exact hfr1
    · rw [hV' k, if_neg (hkey_ne_dd k hk)]
      exact hfr2
    · intro c'' hc''B hc''s
      have hc''Rem : c'' ∈ remaining st := hfr4 c'' hc''B hc''s
      rcases List.mem_cons.mp (hpermMain.mem_iff.mp hc''Rem) with rfl | hmem
      · exact absurd hc''s hkne_s.symm
      · exact hmem
  · -- doneVal
    intro c'' hc''B hc''notin
    by_cases hceq : c'' = copy
    · rw [hceq, hV' copy.destination, if_pos rfl]
    · have hc''old : c'' ∉ remaining st := by
        intro hmem
        rcases List.mem_cons.mp (hpermMain.mem_iff.mp hmem) with he | hmem'
        · exact hceq he
        · exact hc''notin hmem'
      have hold := inv.doneVal c'' hc''B hc''old
      rw [hV' c''.destination, if_neg (fun he => hceq (hBinj c'' hc''B copy hcopyB he))]
      exact hold
  · -- outDests
    intro c'' hc''
    rcases List.mem_append.mp hc'' with hmem | hmem
    · exact inv.outDests c'' hmem
    · have he : c'' = ⟨spare, copy.destination⟩ := by simpa using hmem
      rw [he]
      exact Or.inl (List.mem_map_of_mem (·.destination) hcopyB)

/-- Preservation of the loop invariant by a materialization step that neither
frees a pending copy nor reads from the spare (the holder map is unchanged). -/
theorem step_preserve_plain {B : List RegisterCopy} {spare : Register} {st : SeqState}
    {copy : RegisterCopy} {restA : List RegisterCopy} {h : Nat}
    (hB : validInput B spare) (inv : LoopInv B spare st)
    (hA : st.available = copy :: restA)
    (hH : alLookup st.current_holder copy.source = some h)
    (hPendN : alLookup st.pending h = none) :
    LoopInv B spare ⟨st.sequentialized ++ [⟨h, copy.destination⟩],
      st.current_holder, st.pending, restA⟩ ∧
    (remaining st).Perm (copy ::
      remaining ⟨st.sequentialized ++ [⟨h, copy.destination⟩],
        st.current_holder, st.pending, restA⟩) := by
  set st' : SeqState := ⟨st.sequentialized ++ [⟨h, copy.destination⟩],
      st.current_holder, st.pending, restA⟩ with hst'
  have hcopyAvail : copy ∈ st.available := by
    rw [hA]
    exact List.mem_cons_self _ _
  have hcopyRem : copy ∈ remaining st := mem_remaining_of_available hcopyAvail
  have hcopyB : copy ∈ B := inv.subB copy hcopyRem
  have hVh : stVal st h = copy.source := by
    obtain ⟨h₀, hh₀, hv₀⟩ := inv.holderVal copy hcopyRem
    rw [hH] at hh₀
    have he : h₀ = h := (Option.some.inj hh₀).symm
    rw [he] at hv₀
    exact hv₀
  have hs_not_keys : copy.source ∉ pendKeys st := by
    intro hsk
    have hfr := (inv.pendFresh _ hsk).1
    rw [hH] at hfr
    have he : h = copy.source := Option.some.inj hfr
    obtain ⟨v, hv⟩ := (alLookup_isSome_iff st.pending copy.source).mpr hsk
    rw [he, hv] at hPendN
    cases hPendN
  have hrem' : remaining st' = pendingCopies st ++ restA := rfl
  have hpermMain : (remaining st).Perm (copy :: remaining st') := by
    have h1 : remaining st = pendingCopies st ++ (copy :: restA) := by
      rw [remaining, hA]
    rw [h1, hrem']
    exact List.perm_middle
  have hsubRem : ∀ c' ∈ remaining st', c' ∈ remaining st :=
    fun c' hc' => hpermMain.mem_iff.mpr (List.mem_cons_of_mem _ hc')
  have hremND' : ((copy :: remaining st').map (·.destination)).Nodup :=
    (hpermMain.map (·.destination)).nodup_iff.mp inv.remNodup
  have hremND_split : copy.destination ∉ (remaining st').map (·.destination) ∧
      ((remaining st').map (·.destination)).Nodup := by
    have h1 := hremND'
    rw [List.map_cons, List.nodup_cons] at h1
    exact h1
  have hV' : ∀ r, stVal st' r =
      if r = copy.destination then copy.source else stVal st r := by
    intro r
    have hval := stVal_append st ⟨h, copy.destination⟩ r
    rw [show (⟨h, copy.destination⟩ : RegisterCopy).source = h from rfl,
      show (⟨h, copy.destination⟩ : RegisterCopy).destination = copy.destination from rfl,
      hVh] at hval
    exact hval
  have hBinj : ∀ p ∈ B, ∀ q ∈ B, p.destination = q.destination → p = q := by
    intro p hp q hq hpq
    exact List.inj_on_of_nodup_map hB.1 hp hq hpq
  have hkey_ne_dd : ∀ k ∈ pendKeys st, k ≠ copy.destination := by
    intro k hk
    obtain ⟨x, hx, hxk⟩ := List.mem_map.mp hk
    rw [← hxk, inv.pendDest x hx]
    exact remaining_dest_ne inv.remNodup (mem_pendingCopies_of_entry
      (show (x.1, x.2) ∈ st.pending by simpa using hx)) hcopyAvail
  refine ⟨⟨?_, ?_, ?_, ?_, ?_, ?_, ?_, ?_, ?_⟩, hpermMain⟩
  · exact inv.pendDest
  · exact inv.pendSorted
  · intro c' hc'
    exact inv.subB c' (hsubRem c' hc')
  · exact hremND_split.2
  · -- holderVal
    intro c' hc'
    have hc'Rem : c' ∈ remaining st := hsubRem c' hc'
    by_cases hcs : c'.source = copy.source
    · refine ⟨h, ?_, ?_⟩
      · rw [hcs]
        exact hH
      · rw [hV' h]
        by_cases hhd : h = copy.destination
        · rw [if_pos hhd, hcs]
        · rw [if_neg hhd, hVh, hcs]
    · obtain ⟨h', hh', hv'⟩ := inv.holderVal c' hc'Rem
      refine ⟨h', hh', ?_⟩
      rw [hV' h', if_neg (inv.availSafe copy hcopyAvail c' hc'Rem hcs h' hh')]
      exact hv'
  · -- availSafe
    intro c hc c' hc' hcs h'' hh''
    have hc'Rem : c' ∈ remaining st := hsubRem c' hc'
    have hcA : c ∈ st.available := by
      rw [hA]
      exact List.mem_cons_of_mem _ hc
    exact inv.availSafe c hcA c' hc'Rem hcs h'' hh''
  · -- pendFresh
    intro k hk
    have hkne_s : k ≠ copy.source := fun he => hs_not_keys (he ▸ hk)
    obtain ⟨hfr1, hfr2, hfr3, hfr4⟩ := inv.pendFresh k hk
    refine ⟨hfr1, ?_, hfr3, ?_⟩
    · rw [hV' k, if_neg (hkey_ne_dd k hk)]
      exact hfr2
    · intro c'' hc''B hc''s
      have hc''Rem : c'' ∈ remaining st := hfr4 c'' hc''B hc''s
      rcases List.mem_cons.mp (hpermMain.mem_iff.mp hc''Rem) with rfl | hmem
      · exact absurd hc''s hkne_s.symm
      · exact hmem
  · -- doneVal
    intro c'' hc''B hc''notin
    by_cases hceq : c'' = copy
    · rw [hceq, hV' copy.destination, if_pos rfl]
    · have hc''old : c'' ∉ remaining st := by
        intro hmem
        rcases List.mem_cons.mp (hpermMain.mem_iff.mp hmem) with he | hmem'
        · exact hceq he
        · exact hc''notin hmem'
      have hold := inv.doneVal c'' hc''B hc''old
      rw [hV' c''.destination, if_neg (fun he => hceq (hBinj c'' hc''B copy hcopyB he))]
      exact hold
  · -- outDests
    intro c'' hc''
    rcases List.mem_append.mp hc'' with hmem | hmem
    · exact inv.outDests c'' hmem
    · have he : c'' = ⟨h, copy.destination⟩ := by simpa using hmem
      rw [he]
      exact Or.inl (List.mem_map_of_mem (·.destination) hcopyB)

theorem pendKeys_subset_destinations {B : List RegisterCopy} {spare : Register}
    {st : SeqState} (inv : LoopInv B spare st) :
    ∀ m ∈ pendKeys st, m ∈ destinations B := by
  intro m hm
  obtain ⟨x, hx, hx1⟩ := List.mem_map.mp hm
  have hxB : x.2 ∈ B := inv.subB x.2 (mem_remaining_of_pending
    (mem_pendingCopies_of_entry (show (x.1, x.2) ∈ st.pending by simpa using hx)))
  rw [← hx1, inv.pendDest x hx]
  exact List.mem_map_of_mem (·.destination) hxB

/-- At a quiescent state, the source of every pending copy is itself a pending
key (the pending copies close up into cycles). -/
theorem quiescent_sources_in_keys {B : List RegisterCopy} {spare : Register}
    {st : SeqState} (hB : validInput B spare) (inv : LoopInv B spare st)
    (hA : st.available = []) :
    ∀ c' ∈ pendingCopies st, c'.source ∈ pendKeys st := by
  intro c' hc'
  obtain ⟨x, hx, hx2⟩ := List.mem_map.mp hc'
  have hkd : x.1 = c'.destination := by
    rw [inv.pendDest x hx, hx2]
  have hk : c'.destination ∈ pendKeys st :=
    hkd ▸ mem_pendKeys_of_entry (show (x.1, x.2) ∈ st.pending by simpa using hx)
  obtain ⟨s, hs, hsk⟩ := (quiescent_closure hB inv hA).1 _ hk
  have hcb : c' ∈ B := inv.subB c' (mem_remaining_of_pending hc')
  rw [srcMap_eq_of_mem hB.1 hcb] at hs
  rw [← Option.some.inj hs] at hsk
  exact hsk

/-- Preservation of the loop invariant by a cycle-breaking eviction step. -/
theorem step_preserve_evict {B : List RegisterCopy} {spare : Register} {st : SeqState}
    {d : Nat} {c : RegisterCopy} {restP : List (Nat × RegisterCopy)}
    (hB : validInput B spare) (inv : LoopInv B spare st)
    (hA : st.available = [])
    (hP : st.pending = (d, c) :: restP) :
    LoopInv B spare ⟨st.sequentialized ++ [⟨c.destination, spare⟩],
      alInsert st.current_holder c.destination spare, restP, [c]⟩ ∧
    (remaining st).Perm (remaining ⟨st.sequentialized ++ [⟨c.destination, spare⟩],
      alInsert st.current_holder c.destination spare, restP, [c]⟩) ∧
    d ∈ cycleMins B := by
  set st' : SeqState := ⟨st.sequentialized ++ [⟨c.destination, spare⟩],
      alInsert st.current_holder c.destination spare, restP, [c]⟩ with hst'
  have hdc : d = c.destination := inv.pendDest (d, c) (by
    rw [hP]
    exact List.mem_cons_self _ _)
  have hcP : c ∈ pendingCopies st := mem_pendingCopies_of_entry (by
    rw [hP]
    exact List.mem_cons_self _ _)
  have hcRem : c ∈ remaining st := mem_remaining_of_pending hcP
  have hcB : c ∈ B := inv.subB c hcRem
  have hspD : ∀ c'' ∈ B, c''.destination ≠ spare := fun c'' hc'' => (hB.2 c'' hc'').2
  have hspS : ∀ c'' ∈ B, c''.source ≠ spare := fun c'' hc'' => (hB.2 c'' hc'').1
  have hdK : d ∈ pendKeys st := by
    simp [pendKeys, hP]
  have hfrD := inv.pendFresh d hdK
  have hVd : stVal st d = d := hfrD.2.1
  have hkeysD := pendKeys_subset_destinations inv
  have hkeysnd : (pendKeys st).Nodup := keys_nodup inv.pendSorted
  have hsrcK := quiescent_sources_in_keys hB inv hA
  have hremSt : remaining st = pendingCopies st := by
    simp [remaining, hA]
  have hpcs : pendingCopies st = c :: restP.map Prod.snd := by
    simp [pendingCopies, hP]
  have hrem' : remaining st' = restP.map Prod.snd ++ [c] := rfl
  have hpermMain : (remaining st).Perm (remaining st') := by
    rw [hremSt, hpcs, hrem']
    exact (List.perm_append_singleton c (restP.map Prod.snd)).symm
  have hmemRem : ∀ c'', c'' ∈ remaining st ↔ c'' ∈ remaining st' :=
    fun c'' => hpermMain.mem_iff
  have hVcd : stVal st c.destination = d := by
    rw [← hdc]
    exact hVd
  have hV' : ∀ r, stVal st' r = if r = spare then d else stVal st r := by
    intro r
    have hval := stVal_append st ⟨c.destination, spare⟩ r
    rw [show (⟨c.destination, spare⟩ : RegisterCopy).source = c.destination from rfl,
      show (⟨c.destination, spare⟩ : RegisterCopy).destination = spare from rfl] at hval
    rw [hVcd] at hval
    exact hval
  have hkeys' : ∀ k ∈ pendKeys st', k ∈ pendKeys st ∧ k ≠ d := by
    intro k hk
    have hkcons : pendKeys st = d :: pendKeys st' := by
      simp [pendKeys, hP, hst']
    constructor
    · rw [hkcons]
      exact List.mem_cons_of_mem _ hk
    · intro he
      have := hkeysnd
      rw [hkcons, List.nodup_cons] at this
      exact this.1 (he ▸ hk)
  refine ⟨⟨?_, ?_, ?_, ?_, ?_, ?_, ?_, ?_, ?_⟩, hpermMain, quiescent_head_cycleMin hB inv hA hP⟩
  · -- pendDest
    intro x hx
    exact inv.pendDest x (by
      rw [hP]
      exact List.mem_cons_of_mem _ hx)
  · -- pendSorted
    have := inv.pendSorted
    rw [hP, List.pairwise_cons] at this
    exact this.2
  · -- subB
    intro c' hc'
    exact inv.subB c' ((hmemRem c').mpr hc')
  · -- remNodup
    exact (hpermMain.map (·.destination)).nodup_iff.mp inv.remNodup
  · -- holderVal
    intro c' hc'
    have hc'Rem : c' ∈ remaining st := (hmemRem c').mpr hc'
    have hc'P : c' ∈ pendingCopies st := by
      rw [← hremSt]
      exact hc'Rem
    have hc'K : c'.source ∈ pendKeys st := hsrcK c' hc'P
    have hc'B : c' ∈ B := inv.subB c' hc'Rem
    by_cases hcs : c'.source = d
    · refine ⟨spare, ?_, ?_⟩
      · rw [alLookup_alInsert, if_pos (by rw [← hdc, hcs])]
      · rw [hV' spare, if_pos rfl, hcs]
    · refine ⟨c'.source, ?_, ?_⟩
      · rw [alLookup_alInsert, if_neg (fun he => hcs (by rw [← he, hdc]))]
        exact (inv.pendFresh c'.source hc'K).1
      · rw [hV' c'.source,
          if_neg (fun he => hspS c' hc'B (by rw [he]))]
        exact (inv.pendFresh c'.source hc'K).2.1
  · -- availSafe
    intro cc hcc c' hc' hcs h'' hh''
    have hccc : cc = c := by simpa using hcc
    rw [hccc]
    have hc'Rem : c' ∈ remaining st := (hmemRem c').mpr hc'
    have hc'P : c' ∈ pendingCopies st := by
      rw [← hremSt]
      exact hc'Rem
    have hc'K : c'.source ∈ pendKeys st := hsrcK c' hc'P
    have hc'B : c' ∈ B := inv.subB c' hc'Rem
    rw [alLookup_alInsert] at hh''
    by_cases hdd : c.destination = c'.source
    · rw [if_pos hdd] at hh''
      have he : h'' = spare := (Option.some.inj hh'').symm
      rw [he]
      intro hcon
      exact hspD c hcB hcon.symm
    · rw [if_neg hdd] at hh''
      have hfr := (inv.pendFresh c'.source hc'K).1
      rw [hfr] at hh''
      have he : h'' = c'.source := (Option.some.inj hh'').symm
      rw [he]
      exact fun hcon => hdd hcon.symm
  · -- pendFresh
    intro k hk
    obtain ⟨hkold, hkne⟩ := hkeys' k hk
    obtain ⟨hfr1, hfr2, hfr3, hfr4⟩ := inv.pendFresh k hkold
    refine ⟨?_, ?_, hfr3, ?_⟩
    · rw [alLookup_alInsert, if_neg (fun he => hkne (by rw [← he, hdc]))]
      exact hfr1
    · have hkns : k ≠ spare := by
        obtain ⟨c₀, hc₀, hc₀d⟩ := List.mem_map.mp (hkeysD k hkold)
        rw [← hc₀d]
        exact hspD c₀ hc₀
      rw [hV' k, if_neg hkns]
      exact hfr2
    · intro c'' hc''B hc''s
      exact (hmemRem c'').mp (hfr4 c'' hc''B hc''s)
  · -- doneVal
    intro c'' hc''B hc''notin
    have hc''old : c'' ∉ remaining st := fun hmem => hc''notin ((hmemRem c'').mp hmem)
    have hold := inv.doneVal c'' hc''B hc''old
    rw [hV' c''.destination, if_neg (hspD c'' hc''B)]
    exact hold
  · -- outDests
    intro c'' hc''
    rcases List.mem_append.mp hc'' with hmem | hmem
    · exact inv.outDests c'' hmem
    · have he : c'' = ⟨c.destination, spare⟩ := by simpa using hmem
      rw [he]
      exact Or.inr rfl

/-- Combined preservation: a successful loop step preserves the invariant,
emits exactly one copy, never grows the pending key set, and either consumes
one remaining copy or performs an eviction whose destination is the least
register of a cycle of the batch. -/
theorem stepBody_preserves {B : List RegisterCopy} {spare : Register} {st st' : SeqState}
    (hB : validInput B spare) (inv : LoopInv B spare st)
    (hstep : stepBody spare st = .ok (some st')) :
    LoopInv B spare st' ∧
    (∃ e, st'.sequentialized = st.sequentialized ++ [e]) ∧
    (pendKeys st').toFinset ⊆ (pendKeys st).toFinset ∧
    ((∃ c₀, (remaining st).Perm (c₀ :: remaining st')) ∨
      ((remaining st).Perm (remaining st') ∧
        ∃ dmin, dmin ∈ cycleMins B ∧
          (pendKeys st).toFinset = insert dmin (pendKeys st').toFinset ∧
          dmin ∉ (pendKeys st').toFinset)) := by
  rcases stepBody_spec spare st with ⟨_, _, he⟩ | ⟨d, c, restP, hA, hP, he⟩ |
      ⟨c, restA, hA, hH, he⟩ | ⟨c, restA, h, ac, hA, hH, hPend, he⟩ |
      ⟨c, restA, h, hA, hH, hPend, hsp, he⟩ | ⟨c, restA, h, hA, hH, hPend, hsp, he⟩ <;>
    rw [he] at hstep
  · exact absurd hstep (by simp)
  · -- eviction
    cases hstep
    obtain ⟨hinv, hperm, hmin⟩ := step_preserve_evict hB inv hA hP
    refine ⟨hinv, ⟨_, rfl⟩, ?_, Or.inr ⟨hperm, d, hmin, ?_, ?_⟩⟩
    · intro k hk
      rw [List.mem_toFinset] at hk ⊢
      have : pendKeys st = d :: restP.map Prod.fst := by
        simp [pendKeys, hP]
      rw [this]
      exact List.mem_cons_of_mem _ hk
    · have : pendKeys st = d :: restP.map Prod.fst := by
        simp [pendKeys, hP]
      rw [this]
      simp [pendKeys]
    · have hnd : (pendKeys st).Nodup := keys_nodup inv.pendSorted
      have hkc : pendKeys st = d :: restP.map Prod.fst := by
        simp [pendKeys, hP]
      rw [hkc, List.nodup_cons] at hnd
      intro hmem
      rw [List.mem_toFinset] at hmem
      refine hnd.1 ?_
      simpa [pendKeys] using hmem
  · exact absurd hstep (by simp)
  · -- hit
    cases hstep
    obtain ⟨hinv, hperm⟩ := step_preserve_hit hB inv hA hH hPend
    refine ⟨hinv, ⟨_, rfl⟩, ?_, Or.inl ⟨c, hperm⟩⟩
    intro k hk
    rw [List.mem_toFinset] at hk ⊢
    exact ((pErase_sublist st.pending h).map Prod.fst).subset hk
  · -- spare reclaim
    subst hsp
    cases hstep
    obtain ⟨hinv, hperm⟩ := step_preserve_spare hB inv hA hH hPend
    exact ⟨hinv, ⟨_, rfl⟩, fun k hk => hk, Or.inl ⟨c, hperm⟩⟩
  · -- plain
    cases hstep
    obtain ⟨hinv, hperm⟩ := step_preserve_plain hB inv hA hH hPend
    exact ⟨hinv, ⟨_, rfl⟩, fun k hk => hk, Or.inl ⟨c, hperm⟩⟩

/-- Main loop correctness: starting from any state satisfying the invariant,
with adequate fuel the loop returns a sequence whose execution realizes the
parallel-copy semantics on every batch destination, writes only to batch
destinations and the spare, and whose length is the starting length plus the
number of remaining copies plus at most one eviction per remaining cycle. -/
theorem runLoop_spec {B : List RegisterCopy} {spare : Register} (hB : validInput B spare) :
    ∀ (fuel : Nat) (st : SeqState), loopMeasure st < fuel → LoopInv B spare st →
    ∃ out k, runLoop spare fuel st = .ok out ∧
      (∀ c ∈ B, execSeq out id c.destination = c.source) ∧
      (∀ e ∈ out, e.destination ∈ destinations B ∨ e.destination = spare) ∧
      out.length = st.sequentialized.length + (remaining st).length + k ∧
      k ≤ (cycleMins B ∩ (pendKeys st).toFinset).card := by
  intro fuel
  induction fuel with
  | zero =>
    intro st hm inv
    omega
  | succ n ih =>
    intro st hm inv
    rw [runLoop]
    rcases hstep : stepBody spare st with e | o
    · exfalso
      rcases stepBody_spec spare st with ⟨_, _, he⟩ | ⟨d, c, restP, hA, hP, he⟩ |
          ⟨c, restA, hA, hH, he⟩ | ⟨c, restA, h, ac, hA, hH, hPend, he⟩ |
          ⟨c, restA, h, hA, hH, hPend, hsp, he⟩ | ⟨c, restA, h, hA, hH, hPend, hsp, he⟩ <;>
        rw [he] at hstep
      · exact absurd hstep (by simp)
      · exact absurd hstep (by simp)
      · obtain ⟨h₀, hh₀, _⟩ := inv.holderVal c (mem_remaining_of_available (by
          rw [hA]
          exact List.mem_cons_self _ _))
        rw [hH] at hh₀
        cases hh₀
      · exact absurd hstep (by simp)
      · exact absurd hstep (by simp)
      · exact absurd hstep (by simp)
    · rcases o with _ | st'
      · -- loop finished
        rcases stepBody_spec spare st with ⟨hA, hP, he⟩ | ⟨d, c, restP, hA, hP, he⟩ |
            ⟨c, restA, hA, hH, he⟩ | ⟨c, restA, h, ac, hA, hH, hPend, he⟩ |
            ⟨c, restA, h, hA, hH, hPend, hsp, he⟩ | ⟨c, restA, h, hA, hH, hPend, hsp, he⟩ <;>
          rw [he] at hstep
        · have hrem : remaining st = [] := by
            simp [remaining, pendingCopies, hA, hP]
          refine ⟨st.sequentialized, 0, rfl, ?_, inv.outDests, by
            rw [hrem]
            simp, by omega⟩
          intro c hc
          have : c ∉ remaining st := by
            rw [hrem]
            exact List.not_mem_nil c
          exact inv.doneVal c hc this
        · exact absurd hstep (by simp)
        · exact absurd hstep (by simp)
        · exact absurd hstep (by simp)
        · exact absurd hstep (by simp)
        · exact absurd hstep (by simp)
      · -- one more step
        have hmless := stepBody_measure hstep
        obtain ⟨hinv', ⟨e, hseq'⟩, hkeysub, hacct⟩ := stepBody_preserves hB inv hstep
        obtain ⟨out, k', hrun, hpost1, hpost2, hlen, hkb⟩ :=
          ih st' (by omega) hinv'
        rcases hacct with ⟨c₀, hperm⟩ | ⟨hperm, dmin, hdmin, hkeq, hdnotin⟩
        · refine ⟨out, k', hrun, hpost1, hpost2, ?_, ?_⟩
          · have hlen2 : (remaining st).length = (remaining st').length + 1 := by
              rw [hperm.length_eq]
              simp
            rw [hlen, hseq', hlen2]
            simp
            omega
          · refine le_trans hkb (Finset.card_le_card ?_)
            exact Finset.inter_subset_inter (le_refl _) hkeysub
        · refine ⟨out, k' + 1, hrun, hpost1, hpost2, ?_, ?_⟩
          · have hlen2 : (remaining st).length = (remaining st').length := hperm.length_eq
            rw [hlen, hseq', hlen2]
            simp
            omega
          · have hsub : insert dmin (cycleMins B ∩ (pendKeys st').toFinset) ⊆
                cycleMins B ∩ (pendKeys st).toFinset := by
              intro x hx
              rcases Finset.mem_insert.mp hx with rfl | hx'
              · rw [Finset.mem_inter, hkeq]
                exact ⟨hdmin, Finset.mem_insert_self _ _⟩
              · rw [Finset.mem_inter] at hx' ⊢
                rw [hkeq]
                exact ⟨hx'.1, Finset.mem_insert_of_mem hx'.2⟩
            have hcard : (insert dmin (cycleMins B ∩ (pendKeys st').toFinset)).card =
                (cycleMins B ∩ (pendKeys st').toFinset).card + 1 :=
              Finset.card_insert_of_not_mem (fun hmem =>
                hdnotin (Finset.mem_inter.mp hmem).2)
            have := Finset.card_le_card hsub
            omega

theorem alLookup_of_mem_of_nodup {α : Type} {l : List (Nat × α)} {k : Nat} {v : α}
    (hmem : (k, v) ∈ l) (hnd : (l.map Prod.fst).Nodup) : alLookup l k = some v := by
  induction l with
  | nil => cases hmem
  | cons a rest ih =>
    obtain ⟨a1, a2⟩ := a
    rw [List.map_cons, List.nodup_cons] at hnd
    rcases List.mem_cons.mp hmem with he | hmem'
    · rw [Prod.mk.injEq] at he
      rw [← he.1, ← he.2]
      simp [alLookup]
    · have h1 : a1 ≠ k := by
        intro he
        refine hnd.1 ?_
        rw [he]
        have hm : (k, v).1 ∈ rest.map Prod.fst := List.mem_map_of_mem Prod.fst hmem'
        exact hm
      simp only [alLookup, if_neg h1]
      exact ih hmem' hnd.2

/-- After the two initialization loops, the loop invariant holds and the
remaining copies are exactly the batch. -/
theorem initial_inv {B : List RegisterCopy} {spare : Register}
    {pend' pend2 : List (Nat × RegisterCopy)} {hold' : List (Nat × Nat)}
    {avail : List RegisterCopy}
    (hB : validInput B spare)
    (hinit : initLoop spare B [] [] = .ok (pend', hold'))
    (hseed : seedAvailable hold' B pend' [] = (pend2, avail)) :
    LoopInv B spare ⟨[], hold', pend2, avail⟩ ∧
    (remaining ⟨[], hold', pend2, avail⟩).Perm B := by
  obtain ⟨P1, P2, P3, P4, P5, P6⟩ := initLoop_ok hinit (by simp)
  have hmem' : ∀ x, x ∈ pend' ↔ ∃ c ∈ B, x = (c.destination, c) := by
    intro x
    rw [P2 x]
    simp
  have hkeysnd' : (pend'.map Prod.fst).Nodup := keys_nodup P1
  have hlook : ∀ c ∈ B, alLookup pend' c.destination = some c := by
    intro c hc
    exact alLookup_of_mem_of_nodup ((hmem' _).mpr ⟨c, hc, rfl⟩) hkeysnd'
  have hcov : ∀ x ∈ pend', alLookup hold' x.1 = none → ∃ c ∈ B, c.destination = x.1 := by
    intro x hx _
    obtain ⟨c, hc, he⟩ := (hmem' x).mp hx
    exact ⟨c, hc, by rw [he]⟩
  obtain ⟨Q1, Q2, Q3, Q4, Q5⟩ :=
    seedAvailable_facts hseed P1 hB.1 hlook hcov (by simp)
  have hpendDest : ∀ x ∈ pend2, x.1 = x.2.destination := by
    intro x hx
    obtain ⟨c, _, he⟩ := (hmem' x).mp (Q2 x hx)
    rw [he]
  have hBnodup : B.Nodup := hB.1.of_map
  have hpsndnd : (pend'.map Prod.snd).Nodup := by
    have hpnd : pend'.Nodup := hkeysnd'.of_map
    refine hpnd.map_on ?_
    intro x hx y hy hxy
    obtain ⟨c, _, hec⟩ := (hmem' x).mp hx
    obtain ⟨c', _, hec'⟩ := (hmem' y).mp hy
    rw [hec, hec'] at hxy ⊢
    simp only at hxy
    rw [hxy]
  have hsndperm : (pend'.map Prod.snd).Perm B := by
    rw [List.perm_ext_iff_of_nodup hpsndnd hBnodup]
    intro c
    constructor
    · intro hc
      obtain ⟨x, hx, hxc⟩ := List.mem_map.mp hc
      obtain ⟨c', hc', he⟩ := (hmem' x).mp hx
      rw [← hxc, he]
      exact hc'
    · intro hc
      exact List.mem_map.mpr ⟨(c.destination, c), (hmem' _).mpr ⟨c, hc, rfl⟩, rfl⟩
  have hpermB : (remaining ⟨[], hold', pend2, avail⟩).Perm B := by
    have h1 : remaining ⟨[], hold', pend2, avail⟩ = pend2.map Prod.snd ++ avail := rfl
    rw [h1]
    refine Q3.trans ?_
    rw [List.append_nil]
    exact hsndperm
  have hVid : ∀ r, stVal ⟨[], hold', pend2, avail⟩ r = r := fun r => rfl
  have hsrcmem : ∀ s, s ∈ sourcesOf B ↔ ∃ c ∈ B, c.source = s := by
    intro s
    simp [sourcesOf, eq_comm]
  refine ⟨⟨hpendDest, Q1, ?_, ?_, ?_, ?_, ?_, ?_, ?_⟩, hpermB⟩
  · intro c hc
    exact hpermB.mem_iff.mp hc
  · have hmap := hpermB.map (·.destination)
    rw [show B.map (·.destination) = destinations B from rfl] at hmap
    exact hmap.nodup_iff.mpr hB.1
  · -- holderVal
    intro c' hc'
    have hc'B : c' ∈ B := hpermB.mem_iff.mp hc'
    have hsrc : c'.source ∈ sourcesOf B := List.mem_map_of_mem (·.source) hc'B
    refine ⟨c'.source, ?_, hVid _⟩
    rw [P3, if_pos hsrc]
  · -- availSafe
    intro c hc c' hc' _ h' hh'
    have hc'B : c' ∈ B := hpermB.mem_iff.mp hc'
    have hsrc : c'.source ∈ sourcesOf B := List.mem_map_of_mem (·.source) hc'B
    rw [P3, if_pos hsrc] at hh'
    have he : h' = c'.source := (Option.some.inj hh').symm
    have hcd := Q4 c hc
    rw [P3] at hcd
    intro hcon
    rw [← he, hcon] at hsrc
    rw [if_pos hsrc] at hcd
    cases hcd
  · -- pendFresh
    intro k hk
    obtain ⟨x, hx, hxk⟩ := List.mem_map.mp hk
    obtain ⟨v, hv⟩ := Q5 x hx
    rw [P3] at hv
    have hks : x.1 ∈ sourcesOf B := by
      by_cases hmem : x.1 ∈ sourcesOf B
      · exact hmem
      · rw [if_neg hmem] at hv
        cases hv
    rw [← hxk]
    refine ⟨?_, hVid _, (hsrcmem x.1).mp hks, ?_⟩
    · rw [P3, if_pos hks]
    · intro c hcB _
      exact hpermB.mem_iff.mpr hcB
  · -- doneVal
    intro c hcB hcnot
    exact absurd (hpermB.mem_iff.mpr hcB) hcnot
  · -- outDests
    intro c hc
    cases hc

/-- Master specification of `sequentialize_register` on valid input: it
succeeds, the returned sequence executed sequentially gives every batch
destination the original value of its source, every emitted copy writes to a
batch destination or the spare, and the length is `|B|` plus at most one
eviction per cycle. -/
theorem sequentialize_spec {B : List RegisterCopy} {spare : Register}
    (hB : validInput B spare) :
    ∃ out, sequentialize_register B spare = .ok out ∧
      (∀ c ∈ B, execSeq out id c.destination = c.source) ∧
      (∀ e ∈ out, e.destination ∈ destinations B ∨ e.destination = spare) ∧
      ∃ k, out.length = B.length + k ∧ k ≤ numCycles B := by
  obtain ⟨pend', hold', hinit⟩ := @initLoop_ok_of_valid spare B [] [] hB.1 hB.2 (by simp)
  rcases hseed : seedAvailable hold' B pend' [] with ⟨pend2, avail⟩
  obtain ⟨inv₀, hpermB⟩ := initial_inv hB hinit hseed
  obtain ⟨out, k, hrun, hpost1, hpost2, hlen, hkb⟩ :=
    runLoop_spec hB (loopMeasure ⟨[], hold', pend2, avail⟩ + 1)
      ⟨[], hold', pend2, avail⟩ (by omega) inv₀
  refine ⟨out, ?_, hpost1, hpost2, k, ?_, ?_⟩
  · rw [sequentialize_register, hinit]
    simp only [hseed]
    exact hrun
  · rw [hlen, hpermB.length_eq]
    simp
  · refine le_trans hkb ?_
    rw [numCycles]
    exact Finset.card_le_card (Finset.inter_subset_left)

/-! ## The parallel-copy semantics -/

theorem alLookup_foldl_insert_notin (l : List RegisterCopy) (m : List (Nat × Nat))
    (r : Nat) (h : r ∉ destinations l) :
    alLookup (l.foldl (fun m c => alInsert m c.destination c.source) m) r =
      alLookup m r := by
  induction l generalizing m with
  | nil => rfl
  | cons c rest ih =>
    simp only [destinations, List.map_cons, List.mem_cons] at h
    push_neg at h
    rw [List.foldl_cons, ih _ (by
      intro hm
      exact h.2 (by simpa [destinations] using hm)), alLookup_alInsert]
    rw [if_neg (fun he => h.1 he.symm)]

theorem alLookup_foldl_insert :
    ∀ (l : List RegisterCopy), (destinations l).Nodup →
    ∀ {c : RegisterCopy}, c ∈ l → ∀ (m : List (Nat × Nat)),
    alLookup (l.foldl (fun m c => alInsert m c.destination c.source) m) c.destination =
      some c.source := by
  intro l
  induction l with
  | nil =>
    intro _ c hc _
    cases hc
  | cons b rest ih =>
    intro hnd c hc m
    simp only [destinations, List.map_cons, List.nodup_cons] at hnd
    rcases List.mem_cons.mp hc with rfl | hc'
    · rw [List.foldl_cons, alLookup_foldl_insert_notin rest _ _ (by
        simpa [destinations] using hnd.1), alLookup_alInsert, if_pos rfl]
    · rw [List.foldl_cons]
      exact ih (by simpa [destinations] using hnd.2) hc' _

theorem execute_parallel_lookup {B : List RegisterCopy} (hnd : (destinations B).Nodup)
    {c : RegisterCopy} (hc : c ∈ B) :
    alLookup (execute_parallel B) c.destination = some c.source :=
  alLookup_foldl_insert B hnd hc []

/-! ## Claim theorems -/

/-- C1: for every batch satisfying the two preconditions (no duplicate
destinations; the spare is neither a source nor a destination) and every
spare register, `sequentialize_register` succeeds and executing the returned
sequence sequentially (each copy immediately overwriting its destination,
every register initially holding its own pre-batch value) gives every
register that is a destination of the batch the same final value as the
simultaneous parallel execution of the batch; the spare register is not a
batch destination, so its final value is not part of the comparison. -/
theorem sequentialize_register_correct (B : List RegisterCopy) (spare : Register)
    (hB : validInput B spare) :
    ∃ out, sequentialize_register B spare = .ok out ∧
      ∀ r ∈ destinations B,
        some (execute_sequential out r) = alLookup (execute_parallel B) r := by
  obtain ⟨out, hok, hpost1, _, _⟩ := sequentialize_spec hB
  refine ⟨out, hok, ?_⟩
  intro r hr
  obtain ⟨c, hc, hcd⟩ := List.mem_map.mp hr
  rw [← hcd, execute_parallel_lookup hB.1 hc,
    show execute_sequential out = execSeq out id from rfl, hpost1 c hc]

theorem sequentialize_register_correct_witness :
    ∃ out, sequentialize_register [⟨1, 2⟩, ⟨2, 3⟩, ⟨3, 1⟩] 4 = .ok out ∧
      ∀ r ∈ destinations [⟨1, 2⟩, ⟨2, 3⟩, ⟨3, 1⟩],
        some (execute_sequential out r) =
          alLookup (execute_parallel [⟨1, 2⟩, ⟨2, 3⟩, ⟨3, 1⟩]) r :=
  sequentialize_register_correct [⟨1, 2⟩, ⟨2, 3⟩, ⟨3, 1⟩] 4 (by decide)

/-- C3 counterexample: two batches that are permutations of each other (the
same set of copies in different input orders), with the same spare, for which
`sequentialize_register` returns different output sequences: the `available`
stack is seeded in input order and drained LIFO, so the emission order
follows the presentation order of the input. -/
theorem sequentialize_register_order_dependent :
    ([⟨1, 2⟩, ⟨3, 4⟩] : List RegisterCopy).Perm [⟨3, 4⟩, ⟨1, 2⟩] ∧
    sequentialize_register [⟨1, 2⟩, ⟨3, 4⟩] 5 = .ok [⟨3, 4⟩, ⟨1, 2⟩] ∧
    sequentialize_register [⟨3, 4⟩, ⟨1, 2⟩] 5 = .ok [⟨1, 2⟩, ⟨3, 4⟩] ∧
    ¬ ([⟨3, 4⟩, ⟨1, 2⟩] : List RegisterCopy) = [⟨1, 2⟩, ⟨3, 4⟩] := by
  refine ⟨by decide, rfl, rfl, by decide⟩

/-- C3 (amended): two calls with the same batch presented in different input
orders and the same spare may return different sequences, but both succeed
and the two outputs are sequentially equivalent: they produce the same final
value on every destination of the batch. -/
theorem sequentialize_register_perm_equiv (l1 l2 : List RegisterCopy) (spare : Register)
    (hperm : l1.Perm l2) (hv : validInput l1 spare) :
    ∃ o1 o2, sequentialize_register l1 spare = .ok o1 ∧
      sequentialize_register l2 spare = .ok o2 ∧
      ∀ r ∈ destinations l1, execute_sequential o1 r = execute_sequential o2 r := by
  have hdperm : (destinations l1).Perm (destinations l2) := by
    have := hperm.map (·.destination)
    rw [show l1.map (·.destination) = destinations l1 from rfl,
      show l2.map (·.destination) = destinations l2 from rfl] at this
    exact this
  have hv2 : validInput l2 spare := by
    constructor
    · exact hdperm.nodup_iff.mp hv.1
    · intro c hc
      exact hv.2 c (hperm.mem_iff.mpr hc)
  obtain ⟨o1, hok1, hp1, _, _⟩ := sequentialize_spec hv
  obtain ⟨o2, hok2, hp2, _, _⟩ := sequentialize_spec hv2
  refine ⟨o1, o2, hok1, hok2, ?_⟩
  intro r hr
  obtain ⟨c, hc, hcd⟩ := List.mem_map.mp hr
  rw [← hcd, show execute_sequential o1 = execSeq o1 id from rfl,
    show execute_sequential o2 = execSeq o2 id from rfl,
    hp1 c hc, hp2 c (hperm.mem_iff.mp hc)]

theorem sequentialize_register_perm_equiv_witness :
    ∃ o1 o2, sequentialize_register [⟨1, 2⟩, ⟨3, 4⟩] 5 = .ok o1 ∧
      sequentialize_register [⟨3, 4⟩, ⟨1, 2⟩] 5 = .ok o2 ∧
      ∀ r ∈ destinations [⟨1, 2⟩, ⟨3, 4⟩],
        execute_sequential o1 r = execute_sequential o2 r :=
  sequentialize_register_perm_equiv [⟨1, 2⟩, ⟨3, 4⟩] [⟨3, 4⟩, ⟨1, 2⟩] 5
    (by decide) (by decide)

/-- C4: on valid input the output length is bounded by `|B|` plus the number
of independent cycles of the batch's dependency graph (counted by
`numCycles`, one per cycle-minimal register), and if the batch is acyclic the
length is exactly `|B|`. -/
theorem sequentialize_register_length_bound (B : List RegisterCopy) (spare : Register)
    (hB : validInput B spare) :
    ∃ out, sequentialize_register B spare = .ok out ∧
      out.length ≤ B.length + numCycles B ∧
      ((∀ r, ¬ cyclicReg B r) → out.length = B.length) := by
  obtain ⟨out, hok, _, _, k, hlen, hkb⟩ := sequentialize_spec hB
  refine ⟨out, hok, by omega, ?_⟩
  intro hacyc
  have hempty : cycleMins B = ∅ := by
    rw [Finset.eq_empty_iff_forall_not_mem]
    intro r hr
    rw [cycleMins, Finset.mem_filter] at hr
    exact hacyc r hr.2.1
  rw [numCycles, hempty] at hkb
  simp at hkb
  omega

theorem sequentialize_register_length_bound_witness :
    ∃ out, sequentialize_register [⟨1, 2⟩, ⟨2, 1⟩, ⟨4, 5⟩] 3 = .ok out ∧
      out.length ≤ 3 + numCycles [⟨1, 2⟩, ⟨2, 1⟩, ⟨4, 5⟩] ∧
      ((∀ r, ¬ cyclicReg [⟨1, 2⟩, ⟨2, 1⟩, ⟨4, 5⟩] r) → out.length = 3) :=
  sequentialize_register_length_bound [⟨1, 2⟩, ⟨2, 1⟩, ⟨4, 5⟩] 3 (by decide)

/-- C7: on every input satisfying the two preconditions the internal
current-holder lookup always succeeds: the function returns a sequence and in
particular never aborts with the internal-invariant-violation error. -/
theorem sequentialize_register_no_internal_abort (B : List RegisterCopy) (spare : Register)
    (hB : validInput B spare) :
    (∃ out, sequentialize_register B spare = .ok out) ∧
    sequentialize_register B spare ≠ .error .noHolder := by
  obtain ⟨out, hok, _⟩ := sequentialize_spec hB
  refine ⟨⟨out, hok⟩, ?_⟩
  rw [hok]
  simp

theorem sequentialize_register_no_internal_abort_witness :
    (∃ out, sequentialize_register [⟨1, 2⟩, ⟨2, 3⟩, ⟨3, 1⟩] 4 = .ok out) ∧
    sequentialize_register [⟨1, 2⟩, ⟨2, 3⟩, ⟨3, 1⟩] 4 ≠ .error .noHolder :=
  sequentialize_register_no_internal_abort [⟨1, 2⟩, ⟨2, 3⟩, ⟨3, 1⟩] 4 (by decide)

/-- C9: every copy of the returned sequence writes either to a destination of
the batch or to the spare register, so executing the output leaves every
register outside the batch's destination set and distinct from the spare
unchanged. -/
theorem sequentialize_register_frame (B : List RegisterCopy) (spare : Register)
    (hB : validInput B spare) :
    ∃ out, sequentialize_register B spare = .ok out ∧
      (∀ e ∈ out, e.destination ∈ destinations B ∨ e.destination = spare) ∧
      (∀ r, r ∉ destinations B → r ≠ spare → execute_sequential out r = r) := by
  obtain ⟨out, hok, _, hdest, _⟩ := sequentialize_spec hB
  refine ⟨out, hok, hdest, ?_⟩
  intro r hr hrs
  rw [show execute_sequential out = execSeq out id from rfl]
  refine execSeq_unchanged ?_ id
  intro c hc
  rcases hdest c hc with hm | hm
  · exact fun he => hr (he ▸ hm)
  · exact fun he => hrs (he ▸ hm)

theorem sequentialize_register_frame_witness :
    ∃ out, sequentialize_register [⟨1, 2⟩, ⟨2, 3⟩, ⟨3, 1⟩] 4 = .ok out ∧
      (∀ e ∈ out, e.destination ∈ destinations [⟨1, 2⟩, ⟨2, 3⟩, ⟨3, 1⟩] ∨
        e.destination = 4) ∧
      (∀ r, r ∉ destinations [⟨1, 2⟩, ⟨2, 3⟩, ⟨3, 1⟩] → r ≠ 4 →
        execute_sequential out r = r) :=
  sequentialize_register_frame [⟨1, 2⟩, ⟨2, 3⟩, ⟨3, 1⟩] 4 (by decide)

theorem initLoop_error_classes {spare : Register} :
    ∀ {l : List RegisterCopy} {pend : List (Nat × RegisterCopy)} {hold : List (Nat × Nat)}
      {e : SeqError}, initLoop spare l pend hold = .error e →
    e = .spareConflict ∨ e = .dupDest := by
  intro l
  induction l with
  | nil =>
    intro pend hold e h
    simp [initLoop] at h
  | cons c rest ih =>
    intro pend hold e h
    simp only [initLoop] at h
    split at h
    · cases h
      exact Or.inl rfl
    · split at h
      · cases h
        exact Or.inr rfl
      · exact ih h

/-- C5 (amended): termination of the main loop.  Every successful step either
pops a copy from the `available` stack or evicts exactly one pending copy
into the spare; no entry is ever added to `pending`, and the measure
`2·|pending| + |available|` strictly decreases, so the loop terminates — in
particular `sequentialize_register` never exhausts the fuel bound
`2·|pending| + |available| + 1`. -/
theorem sequentialize_register_terminates :
    (∀ (spare : Register) (st st' : SeqState), stepBody spare st = .ok (some st') →
      loopMeasure st' < loopMeasure st ∧
      (∀ x ∈ st'.pending, x ∈ st.pending) ∧
      (st.available ≠ [] ∨ st.pending.length = st'.pending.length + 1)) ∧
    (∀ (B : List RegisterCopy) (spare : Register),
      sequentialize_register B spare ≠ .error .outOfFuel) := by
  constructor
  · intro spare st st' hstep
    refine ⟨stepBody_measure hstep, ?_, ?_⟩
    · rcases stepBody_spec spare st with ⟨_, _, he⟩ | ⟨d, c, restP, hA, hP, he⟩ |
          ⟨c, restA, hA, hH, he⟩ | ⟨c, restA, h, ac, hA, hH, hPend, he⟩ |
          ⟨c, restA, h, hA, hH, hPend, hsp, he⟩ | ⟨c, restA, h, hA, hH, hPend, hsp, he⟩ <;>
        rw [he] at hstep
      · exact absurd hstep (by simp)
      · cases hstep
        intro x hx
        rw [hP]
        exact List.mem_cons_of_mem _ hx
      · exact absurd hstep (by simp)
      · cases hstep
        intro x hx
        exact (pErase_sublist _ _).subset hx
      · cases hstep
        intro x hx
        exact hx
      · cases hstep
        intro x hx
        exact hx
    · rcases stepBody_spec spare st with ⟨_, _, he⟩ | ⟨d, c, restP, hA, hP, he⟩ |
          ⟨c, restA, hA, hH, he⟩ | ⟨c, restA, h, ac, hA, hH, hPend, he⟩ |
          ⟨c, restA, h, hA, hH, hPend, hsp, he⟩ | ⟨c, restA, h, hA, hH, hPend, hsp, he⟩ <;>
        rw [he] at hstep
      · exact absurd hstep (by simp)
      · cases hstep
        refine Or.inr ?_
        rw [hP]
        simp
      · exact absurd hstep (by simp)
      · cases hstep
        exact Or.inl (by rw [hA]; simp)
      · cases hstep
        exact Or.inl (by rw [hA]; simp)
      · cases hstep
        exact Or.inl (by rw [hA]; simp)
  · intro B spare
    rcases hinit : initLoop spare B [] [] with e | ⟨pend, hold⟩
    · rcases initLoop_error_classes hinit with rfl | rfl <;>
        simp [sequentialize_register, hinit]
    · rw [sequentialize_register, hinit]
      rcases hseed : seedAvailable hold B pend [] with ⟨pend2, avail⟩
      simp only [hseed]
      exact runLoop_ne_outOfFuel (by omega)

/-- C5 counterexample to the claim as stated: a main-loop iteration (reached
from the valid batch `[1 → 2]` with spare `3`) that consumes an available
copy while `|pending|` stays the same, so the pending set does not strictly
shrink on every iteration. -/
theorem sequentialize_register_pending_not_strict :
    initLoop 3 [⟨1, 2⟩] [] [] = .ok ([(2, ⟨1, 2⟩)], [(1, 1)]) ∧
    seedAvailable [(1, 1)] [⟨1, 2⟩] [(2, ⟨1, 2⟩)] [] = ([], [⟨1, 2⟩]) ∧
    stepBody 3 ⟨[], [(1, 1)], [], [⟨1, 2⟩]⟩ =
      .ok (some ⟨[⟨1, 2⟩], [(1, 1)], [], []⟩) ∧
    ¬ (⟨[⟨1, 2⟩], [(1, 1)], [], []⟩ : SeqState).pending.length <
      (⟨[], [(1, 1)], [], [⟨1, 2⟩]⟩ : SeqState).pending.length := by
  refine ⟨rfl, rfl, rfl, by decide⟩

theorem sequentialize_register_terminates_witness :
    (loopMeasure ⟨[⟨1, 2⟩], [(1, 1)], [], []⟩ <
        loopMeasure ⟨[], [(1, 1)], [], [⟨1, 2⟩]⟩ ∧
      (∀ x ∈ (⟨[⟨1, 2⟩], [(1, 1)], [], []⟩ : SeqState).pending,
        x ∈ (⟨[], [(1, 1)], [], [⟨1, 2⟩]⟩ : SeqState).pending) ∧
      ((⟨[], [(1, 1)], [], [⟨1, 2⟩]⟩ : SeqState).available ≠ [] ∨
        (⟨[], [(1, 1)], [], [⟨1, 2⟩]⟩ : SeqState).pending.length =
          (⟨[⟨1, 2⟩], [(1, 1)], [], []⟩ : SeqState).pending.length + 1)) ∧
    sequentialize_register [⟨1, 2⟩] 3 ≠ .error .outOfFuel :=
  ⟨sequentialize_register_terminates.1 3 ⟨[], [(1, 1)], [], [⟨1, 2⟩]⟩
      ⟨[⟨1, 2⟩], [(1, 1)], [], []⟩ rfl,
    sequentialize_register_terminates.2 [⟨1, 2⟩] 3⟩

/-- C6: whenever the `available` stack is empty and copies are pending, the
step evicts exactly one copy: the pending copy whose destination is least
under the register order (the head of the sorted pending map); it emits
`(destination, spare)`, records the destination's current holder as the
spare, removes the copy from `pending` and moves it onto the `available`
stack. -/
theorem sequentialize_register_eviction_rule (spare : Register) (st : SeqState)
    (d : Nat) (c : RegisterCopy) (restP : List (Nat × RegisterCopy))
    (hA : st.available = [])
    (hP : st.pending = (d, c) :: restP)
    (hsorted : st.pending.Pairwise (fun a b => a.1 < b.1)) :
    (∀ p ∈ st.pending, d ≤ p.1) ∧
    stepBody spare st = .ok (some ⟨st.sequentialized ++ [⟨c.destination, spare⟩],
      alInsert st.current_holder c.destination spare, restP, [c]⟩) := by
  constructor
  · intro p hp
    rw [hP] at hp
    rcases List.mem_cons.mp hp with he | hp'
    · rw [he]
    · rw [hP, List.pairwise_cons] at hsorted
      exact le_of_lt (hsorted.1 p hp')
  · simp [stepBody, hA, hP, pErase_cons_self]

theorem sequentialize_register_eviction_rule_witness :
    (∀ p ∈ (⟨[], [(1, 1), (2, 2)], [(1, ⟨2, 1⟩), (2, ⟨1, 2⟩)], []⟩ : SeqState).pending,
      1 ≤ p.1) ∧
    stepBody 3 ⟨[], [(1, 1), (2, 2)], [(1, ⟨2, 1⟩), (2, ⟨1, 2⟩)], []⟩ =
      .ok (some ⟨[⟨1, 3⟩], alInsert [(1, 1), (2, 2)] 1 3, [(2, ⟨1, 2⟩)], [⟨2, 1⟩]⟩) :=
  sequentialize_register_eviction_rule 3 ⟨[], [(1, 1), (2, 2)],
    [(1, ⟨2, 1⟩), (2, ⟨1, 2⟩)], []⟩ 1 ⟨2, 1⟩ [(2, ⟨1, 2⟩)] rfl rfl (by decide)

/-- C8: the simple-cycle scenario `{1→2, 2→3, 3→1}` with spare `4`: the
returned sequence, executed sequentially, puts the original value of `1` in
register `2`, of `2` in register `3` and of `3` in register `1` (register 4's
final value is not inspected), and exactly one emitted copy targets the
spare. -/
theorem sequentialize_register_cycle_scenario :
    sequentialize_register [⟨1, 2⟩, ⟨2, 3⟩, ⟨3, 1⟩] 4 =
      .ok [⟨1, 4⟩, ⟨3, 1⟩, ⟨2, 3⟩, ⟨4, 2⟩] ∧
    execute_sequential [⟨1, 4⟩, ⟨3, 1⟩, ⟨2, 3⟩, ⟨4, 2⟩] 2 = 1 ∧
    execute_sequential [⟨1, 4⟩, ⟨3, 1⟩, ⟨2, 3⟩, ⟨4, 2⟩] 3 = 2 ∧
    execute_sequential [⟨1, 4⟩, ⟨3, 1⟩, ⟨2, 3⟩, ⟨4, 2⟩] 1 = 3 ∧
    (([⟨1, 4⟩, ⟨3, 1⟩, ⟨2, 3⟩, ⟨4, 2⟩] : List RegisterCopy).filter
      (fun c => c.destination = 4)).length = 1 := by
  refine ⟨rfl, rfl, rfl, rfl, rfl⟩

/-- C10: a self-copy `r → r` (with `r` distinct from the spare `s`) is
accepted, stays pending at seeding (its destination is its own source), is
broken by one eviction, and the returned sequence is exactly
`[(r, s), (s, r)]`, whose sequential execution returns register `r` to its
original value via the spare. -/
theorem sequentialize_register_self_copy (r s : Nat) (hrs : r ≠ s) :
    sequentialize_register [⟨r, r⟩] s = .ok [⟨r, s⟩, ⟨s, r⟩] ∧
    execute_sequential [⟨r, s⟩, ⟨s, r⟩] r = r := by
  have hsr : s ≠ r := Ne.symm hrs
  constructor
  · simp [sequentialize_register, initLoop, hrs, alLookup, pInsert, alInsert,
      seedAvailable, pErase, loopMeasure, runLoop, stepBody]
  · simp [execute_sequential, execSeq, writeReg, hrs, hsr]

theorem sequentialize_register_self_copy_witness :
    sequentialize_register [⟨1, 1⟩] 2 = .ok [⟨1, 2⟩, ⟨2, 1⟩] ∧
    execute_sequential [⟨1, 2⟩, ⟨2, 1⟩] 1 = 1 :=
  sequentialize_register_self_copy 1 2 (by decide)
